import Mathlib

/-!
Shallow embedding of `src/serve.hpp` (SERVE: SIMD-Enhanced Range & Value Engine).

Conventions of the embedding:
* C++ `int` values are modelled as unbounded `Int`.  The `int` subtractions
  performed inside the interpolation stage are modelled exactly over `Int`
  in `stage1`; the 32-bit signed-overflow hazard of those subtractions is
  modelled by the width-checked variant `stage1Int` / `queryInt` (overflow
  is undefined behaviour, hence `none`), used where the width is material.
* C++ `size_t` index arithmetic is modelled on `Nat` with the single wrapping
  subtraction that actually occurs (`high - 1` / `mid - 1` at zero) made
  explicit via the modulus `SIZE_T_MOD`.
* The `double` arithmetic of the interpolation estimate is modelled exactly
  over `Rat`; all concrete traces used below are exactly representable
  doubles, so the model and the hardware agree on them.
* Operations whose C++ meaning is undefined return `none`:
  reading `data[i]` out of bounds, casting a NaN / out-of-range `double`
  to `size_t` (which the code reaches when `elements[low] == elements[high]`
  makes the divisor zero), and calling `std::clamp(v, lo, hi)` with `lo > hi`
  (a violation of its precondition).
* Loops that the C++ source writes as `while` loops are modelled with an
  explicit iteration budget (`fuel`).  Each call site passes a budget that
  is provably sufficient for every physically realizable vector length; the
  budget expiring is reported as `none`.
-/

set_option allowUnsafeReducibility true
attribute [semireducible] Rat.add Rat.sub Rat.mul Rat.inv

/-- Soft target block size from serve.hpp. -/
def TARGET_BLOCK_SIZE : ℕ := 4096

/-- Hard block-size cap from serve.hpp; exceeding it triggers a split. -/
def MAX_BLOCK_SIZE : ℕ := 8192

/-- Merge threshold from serve.hpp (`TARGET_BLOCK_SIZE / 2`). -/
def MERGE_THRESHOLD : ℕ := TARGET_BLOCK_SIZE / 2

/-- Modulus of `size_t` on the 64-bit targets the code is written for. -/
def SIZE_T_MOD : ℕ := 2 ^ 64

/-- The cache-aligned storage unit of serve.hpp: cached bounds plus the
ordered run of elements (`std::vector<int> data`). -/
structure Block where
  minVal : Int
  maxVal : Int
  data : List Int
deriving DecidableEq, Repr

/-- A default-constructed `Block` (`minVal = 0`, `maxVal = 0`, empty data). -/
instance : Inhabited Block := ⟨⟨0, 0, []⟩⟩

/-- Reading `data[i]`; `none` models an out-of-bounds access (UB in C++). -/
def getE (l : List Int) (i : ℕ) : Option Int := l[i]?

/-- Truncation of a rational toward zero, the rounding C++ uses when
converting a floating-point value to an integer type. -/
def ratTrunc (q : ℚ) : ℤ := q.num.sign * (q.num.natAbs / q.den)

/-- The C++ cast `(size_t)pos` applied to the double `pos`, modelled on the
exact rational value: truncate toward zero, and fault (`none`) when the
truncated value is not representable in `size_t` — that conversion is
undefined behaviour (and the NaN produced by the guard-free division when
`elements[low] == elements[high]` is handled before this point). -/
def toSizeT (q : ℚ) : Option ℕ :=
  let t := ratTrunc q
  if t < 0 ∨ (SIZE_T_MOD : ℤ) ≤ t then none else some t.toNat

/-- `std::clamp(v, lo, hi)`: requires `lo ≤ hi`, otherwise the behaviour is
undefined — modelled as `none`. -/
def clampChecked (v lo hi : ℕ) : Option ℕ :=
  if hi < lo then none else some (max lo (min v hi))

/-- Result of the interpolation stage of `Block::search`: an early return,
a fall-through to the remaining stages with the current window, or an
undefined-behaviour fault. -/
inductive S1Res where
  | found : Bool → S1Res
  | window : ℕ → ℕ → S1Res
  | fault : S1Res
deriving DecidableEq, Repr

/-- Stage 1 of `Block::search` (serve.hpp lines 36-44): up to `steps`
iterations of interpolation probing.  `pos` is computed exactly over `ℚ`;
`high - 1` is the `size_t` subtraction, written with its wrap at zero. -/
def stage1 (l : List Int) (x : Int) : ℕ → ℕ → ℕ → S1Res
  | 0, low, high => .window low high
  | steps + 1, low, high =>
    if high < low then .found false
    else
      match getE l low, getE l high with
      | some a, some b =>
        if a = x ∨ b = x then .found true
        else if b - a = 0 then .fault
        else
          match toSizeT ((low : ℚ) +
              ((x - a : ℤ) : ℚ) / ((b - a : ℤ) : ℚ) * ((high - low : ℕ) : ℚ)) with
          | none => .fault
          | some p =>
            match clampChecked p (low + 1)
                (if high = 0 then SIZE_T_MOD - 1 else high - 1) with
            | none => .fault
            | some mid =>
              match getE l mid with
              | none => .fault
              | some m =>
                if m = x then .found true
                else if m < x then stage1 l x steps (mid + 1) high
                else stage1 l x steps low (mid - 1)
      | _, _ => .fault

/-- Smallest value of the C++ `int` of the target platform. -/
def INT_MIN : Int := -(2 ^ 31)

/-- Largest value of the C++ `int` of the target platform. -/
def INT_MAX : Int := 2 ^ 31 - 1

/-- A C++ `int` subtraction: the mathematical difference when it fits the
`int` range, undefined behaviour (`none`) on signed overflow. -/
def subInt (a b : Int) : Option Int :=
  if INT_MIN ≤ a - b ∧ a - b ≤ INT_MAX then some (a - b) else none

/-- Stage 1 of `Block::search` with the `int` width of the two subtractions
of serve.hpp line 39 kept: `x - data[low]` and `data[high] - data[low]` are
`int` arithmetic, so either overflowing is undefined behaviour (`.fault`).
Apart from the two `subInt` checks this is `stage1` verbatim. -/
def stage1Int (l : List Int) (x : Int) : ℕ → ℕ → ℕ → S1Res
  | 0, low, high => .window low high
  | steps + 1, low, high =>
    if high < low then .found false
    else
      match getE l low, getE l high with
      | some a, some b =>
        if a = x ∨ b = x then .found true
        else
          match subInt x a, subInt b a with
          | some dx, some d =>
            if d = 0 then .fault
            else
              match toSizeT ((low : ℚ) +
                  (dx : ℚ) / (d : ℚ) * ((high - low : ℕ) : ℚ)) with
              | none => .fault
              | some p =>
                match clampChecked p (low + 1)
                    (if high = 0 then SIZE_T_MOD - 1 else high - 1) with
                | none => .fault
                | some mid =>
                  match getE l mid with
                  | none => .fault
                  | some m =>
                    if m = x then .found true
                    else if m < x then stage1Int l x steps (mid + 1) high
                    else stage1Int l x steps low (mid - 1)
          | _, _ => .fault
      | _, _ => .fault

/-- The 8-lane AVX2 comparison of serve.hpp lines 51-53: load
`data[base..base+7]` (out of bounds is UB, hence `none`) and report whether
`_mm256_movemask_ps` saw all eight lanes strictly below the target
(`mask == 0xFF`). -/
def lanesLt (l : List Int) (x : Int) (base : ℕ) : Option Bool :=
  match getE l base, getE l (base + 1), getE l (base + 2), getE l (base + 3),
      getE l (base + 4), getE l (base + 5), getE l (base + 6),
      getE l (base + 7) with
  | some v0, some v1, some v2, some v3, some v4, some v5, some v6, some v7 =>
    some (decide (v0 < x) && decide (v1 < x) && decide (v2 < x) &&
      decide (v3 < x) && decide (v4 < x) && decide (v5 < x) &&
      decide (v6 < x) && decide (v7 < x))
  | _, _, _, _, _, _, _, _ => none

/-- Stage 2 of `Block::search` (serve.hpp lines 47-57), the AVX2 path:
while the window is wider than 32, compare the 8 lanes at the midpoint
against the target and advance `low` or `high` by 8 past the midpoint
(`mask == 0xFF`, i.e. every lane below the target, moves `low`).
The loop shrinks `high - low` every iteration, so the fuel passed by
`Block.searchWith` (`length + 8`) never expires. -/
def simdLoop (l : List Int) (x : Int) : ℕ → ℕ → ℕ → Option (ℕ × ℕ)
  | 0, _, _ => none
  | fuel + 1, low, high =>
    if 32 < high - low then
      match lanesLt l x (low + (high - low) / 2) with
      | none => none
      | some true => simdLoop l x fuel (low + (high - low) / 2 + 8) high
      | some false => simdLoop l x fuel low (low + (high - low) / 2 + 8)
    else some (low, high)

/-- Stage 3 of `Block::search` (serve.hpp lines 60-65): scalar binary
search on whatever window remains.  `high = mid - 1` is a `size_t`
subtraction: at `mid = 0` it wraps to `SIZE_T_MOD - 1`, after which the next
probe indexes far outside any physically realizable vector (`none`). -/
def scalarLoop (l : List Int) (x : Int) : ℕ → ℕ → ℕ → Option Bool
  | 0, _, _ => none
  | fuel + 1, low, high =>
    if high < low then some false
    else
      match getE l (low + (high - low) / 2) with
      | none => none
      | some m =>
        if m = x then some true
        else if m < x then scalarLoop l x fuel (low + (high - low) / 2 + 1) high
        else scalarLoop l x fuel low
          (if low + (high - low) / 2 = 0 then SIZE_T_MOD - 1
           else low + (high - low) / 2 - 1)

/-- `Block::contains` (serve.hpp line 27): O(1) range pre-check. -/
def Block.containsB (b : Block) (x : Int) : Bool :=
  !b.data.isEmpty && decide (b.minVal ≤ x) && decide (x ≤ b.maxVal)

/-- `Block::search` (serve.hpp lines 31-67) with the AVX2 stage compiled in
(`simd = true`) or skipped (`simd = false`, the non-`__AVX2__` build). -/
def Block.searchWith (simd : Bool) (b : Block) (x : Int) : Option Bool :=
  if b.data.isEmpty then some false
  else
    match stage1 b.data x 3 0 (b.data.length - 1) with
    | .found r => some r
    | .fault => none
    | .window low high =>
      if simd then
        match simdLoop b.data x (b.data.length + 8) low high with
        | none => none
        | some (low2, high2) => scalarLoop b.data x (b.data.length + 8) low2 high2
      else scalarLoop b.data x (b.data.length + 8) low high

/-- `Block::search` as used by the engine; claim C7 proves the two builds
extensionally equal on well-formed blocks. -/
def Block.search (b : Block) (x : Int) : Option Bool := Block.searchWith false b x

/-- `Block::search` (scalar build) with the `int` width of the stage-1
subtractions kept via `stage1Int`; stages 2/3 are comparison-only and
identical to `Block.search`. -/
def Block.searchInt (b : Block) (x : Int) : Option Bool :=
  if b.data.isEmpty then some false
  else
    match stage1Int b.data x 3 0 (b.data.length - 1) with
    | .found r => some r
    | .fault => none
    | .window low high => scalarLoop b.data x (b.data.length + 8) low high

/-- `Block::insert` (serve.hpp lines 69-75): `std::lower_bound` finds the
first element not below `x` (on the sorted data this is the boundary between
the `takeWhile`/`dropWhile` parts); a present `x` is a no-op, otherwise `x`
is inserted there and the cached bounds are recomputed from front/back. -/
def Block.insertB (b : Block) (x : Int) : Block :=
  let pre := b.data.takeWhile (fun y => decide (y < x))
  let post := b.data.dropWhile (fun y => decide (y < x))
  if post.head? = some x then b
  else
    let d := pre ++ x :: post
    ⟨d.headI, d.getLastI, d⟩

/-- The engine of serve.hpp: an ordered sequence of blocks. -/
structure UltimateHybridSearch where
  blocks : List Block
deriving DecidableEq, Repr

namespace UltimateHybridSearch

/-- Loop body of `findBlockContaining` (serve.hpp lines 95-107): binary
search over the block sequence comparing `x` with each candidate's
`maxVal`, recording the candidate index whenever `contains` confirms
eligibility.  `left`, `right`, `result` are C++ `int`s; each iteration
shrinks `right - left`, so the fuel passed by `findBlockContaining`
(`blocks.length + 1`) never expires. -/
def findAux (bs : List Block) (x : Int) : ℕ → ℤ → ℤ → ℤ → ℤ
  | 0, _, _, result => result
  | fuel + 1, left, right, result =>
    if right < left then result
    else
      if (bs.getD (left + (right - left) / 2).toNat default).maxVal < x then
        findAux bs x fuel (left + (right - left) / 2 + 1) right result
      else if (bs.getD (left + (right - left) / 2).toNat default).containsB x then
        findAux bs x fuel left (left + (right - left) / 2 - 1)
          (left + (right - left) / 2)
      else findAux bs x fuel left (left + (right - left) / 2 - 1) result

/-- `findBlockContaining` (serve.hpp lines 95-107). -/
def findBlockContaining (e : UltimateHybridSearch) (x : Int) : ℤ :=
  if e.blocks.isEmpty then -1
  else findAux e.blocks x (e.blocks.length + 1) 0 ((e.blocks.length : ℤ) - 1) (-1)

/-- `query` (serve.hpp lines 148-151): locate the candidate block and
delegate to its `search`; `&&` short-circuits to `false` when no block is
found. -/
def query (e : UltimateHybridSearch) (x : Int) : Option Bool :=
  if e.findBlockContaining x < 0 then some false
  else (e.blocks.getD (e.findBlockContaining x).toNat default).search x

/-- `query` delegating to the width-faithful `Block.searchInt`: identical to
`query` except that the stage-1 `int` subtractions keep their 32-bit
width. -/
def queryInt (e : UltimateHybridSearch) (x : Int) : Option Bool :=
  if e.findBlockContaining x < 0 then some false
  else (e.blocks.getD (e.findBlockContaining x).toNat default).searchInt x

/-- `splitBlockIfNeeded` (serve.hpp lines 109-119): when block `idx`
exceeds [MAX_BLOCK_SIZE], split it at its midpoint, recompute both bounds
from front/back, and place the right half immediately after it.  (The
only caller passes a non-negative in-range index, so the index is a `ℕ`.) -/
def splitBlockIfNeeded (e : UltimateHybridSearch) (idx : ℕ) : UltimateHybridSearch :=
  if idx < e.blocks.length ∧ MAX_BLOCK_SIZE < (e.blocks.getD idx default).data.length then
    let b := e.blocks.getD idx default
    let mid := b.data.length / 2
    let leftB : Block := ⟨(b.data.take mid).headI, (b.data.take mid).getLastI, b.data.take mid⟩
    let rightB : Block := ⟨(b.data.drop mid).headI, (b.data.drop mid).getLastI, b.data.drop mid⟩
    ⟨(e.blocks.set idx leftB).insertIdx (idx + 1) rightB⟩
  else e

/-- `insert` (serve.hpp lines 153-163): on an empty engine, create one
block; otherwise `std::upper_bound` keyed on each block's `minVal` yields
the first block whose `minVal` exceeds `x` (on the min-ascending block
sequence this is the length of the `takeWhile` prefix with `minVal ≤ x`),
the element is inserted into the block just before it, and that block is
split if oversized. -/
def insert (e : UltimateHybridSearch) (x : Int) : UltimateHybridSearch :=
  if e.blocks.isEmpty then ⟨[Block.insertB default x]⟩
  else
    let ub := (e.blocks.takeWhile (fun b => decide (b.minVal ≤ x))).length
    let idx := if ub = 0 then 0 else ub - 1
    splitBlockIfNeeded ⟨e.blocks.set idx ((e.blocks.getD idx default).insertB x)⟩ idx

/-- `std::unique` on the sorted buffer: drop an element equal to its
predecessor, keep the first of each run. -/
def dedupFrom (prev : Int) : List Int → List Int
  | [] => []
  | b :: rest => if b = prev then dedupFrom prev rest else b :: dedupFrom b rest

/-- Adjacent deduplication, the effect of `std::unique` + `erase`. -/
def dedupAdj : List Int → List Int
  | [] => []
  | a :: rest => a :: dedupFrom a rest

/-- `std::sort` on the input buffer, modelled by insertion sort (any
correct ascending sort; `std::sort` is unstable but on integers stability
is unobservable). -/
def sortInts (l : List Int) : List Int := l.insertionSort (· ≤ ·)

/-- The canonical buffer `build` leaves behind: sorted ascending, adjacent
duplicates removed. -/
def canonicalize (l : List Int) : List Int := dedupAdj (sortInts l)

/-- One pass of the chunking loop of `build` (serve.hpp lines 139-145):
each iteration takes the next `TARGET_BLOCK_SIZE` elements.  Each pass
drops at least one element, so the fuel `l.length` passed by `chunkList`
never expires. -/
def chunkFuel : ℕ → List Int → List (List Int)
  | 0, _ => []
  | fuel + 1, l =>
    if l.isEmpty then []
    else l.take TARGET_BLOCK_SIZE :: chunkFuel fuel (l.drop TARGET_BLOCK_SIZE)

/-- Partition of the deduplicated buffer into consecutive chunks of
`TARGET_BLOCK_SIZE` (final chunk possibly shorter). -/
def chunkList (l : List Int) : List (List Int) := chunkFuel l.length l

/-- A block as `build` creates it: data plus bounds from front/back. -/
def mkBlock (d : List Int) : Block := ⟨d.headI, d.getLastI, d⟩

/-- `build` (serve.hpp lines 134-146): clear, sort + dedup the caller's
buffer, chunk it into blocks. -/
def build (l : List Int) : UltimateHybridSearch :=
  ⟨(chunkList (canonicalize l)).map mkBlock⟩

/-- Per-block extraction of `rangeQuery` (serve.hpp lines 169-171):
`std::lower_bound` for `low` then `std::upper_bound` for `high` on the
sorted data selects the contiguous run of values in `[low, high]`. -/
def blockRange (b : Block) (low high : Int) : List Int :=
  (b.data.dropWhile (fun y => decide (y < low))).takeWhile (fun y => decide (y ≤ high))

/-- Forward scan of `rangeQuery` (serve.hpp line 168): keep appending
block extractions while the block's `minVal` does not exceed `high`. -/
def collectRange (low high : Int) : List Block → List Int
  | [] => []
  | b :: rest =>
    if b.minVal ≤ high then blockRange b low high ++ collectRange low high rest
    else []

/-- `rangeQuery` (serve.hpp lines 165-174): `std::lower_bound` over the
blocks keyed on `maxVal < low` skips the blocks wholly below the range
(on the max-ascending sequence this is a `dropWhile`), then the forward
scan collects. -/
def rangeQuery (e : UltimateHybridSearch) (low high : Int) : List Int :=
  collectRange low high (e.blocks.dropWhile (fun b => decide (b.maxVal < low)))

/-- A sequence of engine-level inserts, applied left to right. -/
def applyInserts (e : UltimateHybridSearch) (xs : List Int) : UltimateHybridSearch :=
  xs.foldl insert e

/-- All elements stored in the engine, in block order. -/
def elems (e : UltimateHybridSearch) : List Int := (e.blocks.map Block.data).flatten

end UltimateHybridSearch

/-! ## Well-formedness invariants -/

/-- The documented Block invariant: non-empty, strictly ascending data,
cached bounds equal to front/back, size within the hard cap. -/
structure Block.WF (b : Block) : Prop where
  ne : b.data ≠ []
  sorted : b.data.Sorted (· < ·)
  minv : b.minVal = b.data.headI
  maxv : b.maxVal = b.data.getLastI
  small : b.data.length ≤ MAX_BLOCK_SIZE

/-- The documented engine invariant: consecutive block ranges ascending and
non-overlapping. -/
def ChainOk (bs : List Block) : Prop := bs.Chain' (fun a b => a.maxVal < b.minVal)

/-- Full engine invariant: every block well formed and the ranges ordered. -/
structure UltimateHybridSearch.Inv (e : UltimateHybridSearch) : Prop where
  wf : ∀ b ∈ e.blocks, b.WF
  chain : ChainOk e.blocks

/-! ## Sorted-list helpers -/

/-- In a strictly sorted list, values are strictly monotone in the index. -/
theorem sorted_getElem_lt {l : List Int} (hs : l.Sorted (· < ·)) {i j : ℕ}
    (hi : i < l.length) (hj : j < l.length) (hij : i < j) : l[i] < l[j] := by
  have := @List.Sorted.rel_get_of_lt _ _ _ hs ⟨i, hi⟩ ⟨j, hj⟩ (by simpa using hij)
  simpa using this

theorem sorted_getElem_le {l : List Int} (hs : l.Sorted (· < ·)) {i j : ℕ}
    (hi : i < l.length) (hj : j < l.length) (hij : i ≤ j) : l[i] ≤ l[j] := by
  rcases Nat.lt_or_ge i j with h | h
  · exact le_of_lt (sorted_getElem_lt hs hi hj h)
  · have : i = j := le_antisymm hij h
    subst this; exact le_rfl

theorem headI_eq_getElem {l : List Int} (h : l ≠ []) :
    have hl : 0 < l.length := List.length_pos.mpr h
    l.headI = l[0] := by
  cases l with
  | nil => exact absurd rfl h
  | cons a t => simp

theorem getLastI_eq_getElem {l : List Int} (h : l ≠ []) :
    have hl : 0 < l.length := List.length_pos.mpr h
    l.getLastI = l[l.length - 1] := by
  intro hl
  rw [List.getLastI_eq_getLast?, List.getLast?_eq_getLast _ h,
    List.getLast_eq_getElem]

theorem headI_mem {l : List Int} (h : l ≠ []) : l.headI ∈ l := by
  cases l with
  | nil => exact absurd rfl h
  | cons a t => simp

theorem getLastI_mem {l : List Int} (h : l ≠ []) : l.getLastI ∈ l := by
  rw [List.getLastI_eq_getLast?, List.getLast?_eq_getLast _ h]
  exact List.getLast_mem h

theorem sorted_headI_le {l : List Int} (hs : l.Sorted (· < ·)) {x : Int}
    (hx : x ∈ l) : l.headI ≤ x := by
  have hne : l ≠ [] := by rintro rfl; cases hx
  obtain ⟨i, hi, rfl⟩ := List.getElem_of_mem hx
  rw [headI_eq_getElem hne]
  exact sorted_getElem_le hs (List.length_pos.mpr hne) hi (Nat.zero_le i)

theorem sorted_le_getLastI {l : List Int} (hs : l.Sorted (· < ·)) {x : Int}
    (hx : x ∈ l) : x ≤ l.getLastI := by
  have hne : l ≠ [] := by rintro rfl; cases hx
  obtain ⟨i, hi, rfl⟩ := List.getElem_of_mem hx
  rw [getLastI_eq_getElem hne]
  exact sorted_getElem_le hs hi (by omega) (by omega)

/-! ## takeWhile characterization -/

theorem takeWhile_sub_length {α : Type} (p : α → Bool) (l : List α) :
    (l.takeWhile p).length ≤ l.length :=
  List.Sublist.length_le (List.IsPrefix.sublist (l.takeWhile_prefix p))

theorem takeWhile_pred_of_lt {α : Type} (p : α → Bool) (l : List α) (i : ℕ)
    (h : i < (l.takeWhile p).length) :
    have hi : i < l.length := lt_of_lt_of_le h (takeWhile_sub_length p l)
    p l[i] = true := by
  intro hi
  induction l generalizing i with
  | nil => simp at h
  | cons a t ih =>
    by_cases hp : p a
    · rw [List.takeWhile_cons_of_pos hp] at h
      cases i with
      | zero => simpa using hp
      | succ n => exact ih n (by simpa using h)
    · rw [List.takeWhile_cons_of_neg hp] at h
      simp at h

theorem takeWhile_pred_at_length {α : Type} (p : α → Bool) (l : List α)
    (h : (l.takeWhile p).length < l.length) :
    p (l[(l.takeWhile p).length]) = false := by
  induction l with
  | nil => simp at h
  | cons a t ih =>
    by_cases hp : p a
    · have hlen : ((a :: t).takeWhile p).length = (t.takeWhile p).length + 1 := by
        rw [List.takeWhile_cons_of_pos hp]; simp
      have h2 : (t.takeWhile p).length < t.length := by
        rw [hlen] at h; simpa using Nat.lt_of_succ_lt_succ h
      have := ih h2
      simp only [hlen, List.getElem_cons_succ]
      exact this
    · have hlen : ((a :: t).takeWhile p).length = 0 := by
        rw [List.takeWhile_cons_of_neg hp]; simp
      simp only [hlen, List.getElem_cons_zero]
      simpa using hp

/-! ## Canonicalization: sort + adjacent dedup -/

open UltimateHybridSearch

theorem dedupFrom_spec (t : List Int) : ∀ (prev : Int), t.Sorted (· ≤ ·) →
    (∀ y ∈ t, prev ≤ y) →
    (dedupFrom prev t).Sorted (· < ·) ∧
    (∀ y, y ∈ dedupFrom prev t ↔ y ∈ t ∧ prev < y) := by
  induction t with
  | nil => intro prev _ _; simp [dedupFrom]
  | cons b rest ih =>
    intro prev hs hp
    rcases List.sorted_cons.mp hs with ⟨hb, hrest⟩
    by_cases hbp : b = prev
    · rw [dedupFrom, if_pos hbp]
      obtain ⟨ihs, ihm⟩ := ih prev hrest (fun y hy => hbp ▸ hb y hy)
      refine ⟨ihs, fun y => ?_⟩
      rw [ihm]
      constructor
      · rintro ⟨hy, hlt⟩; exact ⟨List.mem_cons_of_mem _ hy, hlt⟩
      · rintro ⟨hy, hlt⟩
        rcases List.mem_cons.mp hy with rfl | hy
        · exact absurd hlt (by simp [hbp])
        · exact ⟨hy, hlt⟩
    · rw [dedupFrom, if_neg hbp]
      have hpb : prev < b := lt_of_le_of_ne (hp b (by simp)) (Ne.symm hbp)
      obtain ⟨ihs, ihm⟩ := ih b hrest hb
      constructor
      · rw [List.sorted_cons]
        exact ⟨fun y hy => ((ihm y).mp hy).2, ihs⟩
      · intro y
        rw [List.mem_cons, ihm]
        constructor
        · rintro (rfl | ⟨hy, hlt⟩)
          · exact ⟨by simp, hpb⟩
          · exact ⟨List.mem_cons_of_mem _ hy, lt_trans hpb hlt⟩
        · rintro ⟨hy, hlt⟩
          rcases List.mem_cons.mp hy with rfl | hy
          · exact Or.inl rfl
          · rcases lt_or_le b y with h | h
            · exact Or.inr ⟨hy, h⟩
            · exact Or.inl (le_antisymm h (hb y hy))

theorem dedupAdj_spec {l : List Int} (hs : l.Sorted (· ≤ ·)) :
    (dedupAdj l).Sorted (· < ·) ∧ (∀ y, y ∈ dedupAdj l ↔ y ∈ l) := by
  cases l with
  | nil => simp [dedupAdj]
  | cons a t =>
    rcases List.sorted_cons.mp hs with ⟨ha, ht⟩
    obtain ⟨hds, hdm⟩ := dedupFrom_spec t a ht ha
    rw [dedupAdj]
    constructor
    · rw [List.sorted_cons]
      exact ⟨fun y hy => ((hdm y).mp hy).2, hds⟩
    · intro y
      rw [List.mem_cons, hdm, List.mem_cons]
      constructor
      · rintro (rfl | ⟨hy, _⟩)
        · exact Or.inl rfl
        · exact Or.inr hy
      · rintro (rfl | hy)
        · exact Or.inl rfl
        · rcases lt_or_le a y with h | h
          · exact Or.inr ⟨hy, h⟩
          · exact Or.inl (le_antisymm h (ha y hy))

theorem sortInts_sorted (l : List Int) : (sortInts l).Sorted (· ≤ ·) :=
  List.sorted_insertionSort _ l

theorem sortInts_mem (l : List Int) : ∀ y, y ∈ sortInts l ↔ y ∈ l :=
  fun y => (List.perm_insertionSort _ l).mem_iff

theorem canonicalize_sorted (l : List Int) : (canonicalize l).Sorted (· < ·) :=
  (dedupAdj_spec (sortInts_sorted l)).1

theorem canonicalize_mem (l : List Int) : ∀ y, y ∈ canonicalize l ↔ y ∈ l := by
  intro y
  rw [canonicalize, (dedupAdj_spec (sortInts_sorted l)).2 y, sortInts_mem]

/-! ## Chunking -/

theorem chunkFuel_nil (f : ℕ) : chunkFuel f [] = [] := by
  cases f <;> simp [chunkFuel]

theorem chunkFuel_of_le (f1 : ℕ) : ∀ (f2 : ℕ) (l : List Int),
    l.length ≤ f1 → l.length ≤ f2 → chunkFuel f1 l = chunkFuel f2 l := by
  induction f1 with
  | zero =>
    intro f2 l h1 _
    have : l = [] := List.eq_nil_of_length_eq_zero (Nat.le_zero.mp h1)
    subst this; rw [chunkFuel_nil, chunkFuel_nil]
  | succ f ih =>
    intro f2 l h1 h2
    rcases List.eq_nil_or_concat l with rfl | _
    · rw [chunkFuel_nil, chunkFuel_nil]
    · have hne : l ≠ [] := by rintro rfl; simp_all
      have hlen : 1 ≤ l.length := List.length_pos.mpr hne
      cases f2 with
      | zero => omega
      | succ g =>
        rw [chunkFuel, chunkFuel, if_neg (by simp [hne]), if_neg (by simp [hne])]
        have hd : (l.drop TARGET_BLOCK_SIZE).length ≤ f := by
          rw [List.length_drop]; simp [TARGET_BLOCK_SIZE]; omega
        have hd2 : (l.drop TARGET_BLOCK_SIZE).length ≤ g := by
          rw [List.length_drop]; simp [TARGET_BLOCK_SIZE]; omega
        rw [ih g _ hd hd2]

theorem chunkList_eq_cons {l : List Int} (h : l ≠ []) :
    chunkList l = l.take TARGET_BLOCK_SIZE :: chunkList (l.drop TARGET_BLOCK_SIZE) := by
  rw [chunkList, chunkList]
  have hlen : 1 ≤ l.length := List.length_pos.mpr h
  obtain ⟨n, hn⟩ : ∃ n, l.length = n + 1 := ⟨l.length - 1, by omega⟩
  rw [hn, chunkFuel, if_neg (by simp [h])]
  congr 1
  apply chunkFuel_of_le
  · rw [List.length_drop]; simp [TARGET_BLOCK_SIZE]; omega
  · exact le_rfl

theorem chunkList_nil : chunkList [] = [] := by
  rw [chunkList]; simp [chunkFuel_nil]

theorem chunkFuel_flatten (f : ℕ) : ∀ l : List Int, l.length ≤ f →
    (chunkFuel f l).flatten = l := by
  induction f with
  | zero =>
    intro l h
    have : l = [] := List.eq_nil_of_length_eq_zero (Nat.le_zero.mp h)
    subst this; simp [chunkFuel]
  | succ f ih =>
    intro l h
    by_cases hne : l = []
    · subst hne; simp [chunkFuel]
    · rw [chunkFuel, if_neg (by simp [hne])]
      have hd : (l.drop TARGET_BLOCK_SIZE).length ≤ f := by
        rw [List.length_drop]; simp [TARGET_BLOCK_SIZE]
        have : 1 ≤ l.length := List.length_pos.mpr hne
        omega
      simp [ih _ hd]

theorem chunkList_flatten (l : List Int) : (chunkList l).flatten = l :=
  chunkFuel_flatten l.length l le_rfl

theorem chunkList_props (n : ℕ) : ∀ (l : List Int), l.length ≤ n →
    l.Sorted (· < ·) →
    (∀ c ∈ chunkList l, c ≠ [] ∧ c.length ≤ TARGET_BLOCK_SIZE ∧ c.Sorted (· < ·)) ∧
    (chunkList l).Chain' (fun c d => c.getLastI < d.headI) := by
  induction n with
  | zero =>
    intro l h _
    have : l = [] := List.eq_nil_of_length_eq_zero (Nat.le_zero.mp h)
    subst this; simp [chunkList_nil]
  | succ n ih =>
    intro l h hs
    by_cases hne : l = []
    · subst hne; simp [chunkList_nil]
    · rw [chunkList_eq_cons hne]
      have h1 : 1 ≤ l.length := List.length_pos.mpr hne
      have hdlen : (l.drop TARGET_BLOCK_SIZE).length ≤ n := by
        rw [List.length_drop]; simp [TARGET_BLOCK_SIZE]; omega
      have hdsorted : (l.drop TARGET_BLOCK_SIZE).Sorted (· < ·) :=
        hs.sublist (List.drop_sublist _ _)
      obtain ⟨ihc, ihchain⟩ := ih _ hdlen hdsorted
      constructor
      · intro c hc
        rcases List.mem_cons.mp hc with rfl | hc
        · refine ⟨?_, ?_, hs.sublist (List.take_sublist _ _)⟩
          · rw [Ne, List.take_eq_nil_iff]
            simp [TARGET_BLOCK_SIZE, hne]
          · rw [List.length_take]; exact min_le_left _ _
        · exact ihc c hc
      · rw [List.chain'_cons']
        refine ⟨?_, ihchain⟩
        intro d hd
        by_cases hdne : l.drop TARGET_BLOCK_SIZE = []
        · rw [hdne, chunkList_nil] at hd; simp at hd
        · rw [chunkList_eq_cons hdne] at hd
          simp only [List.head?_cons, Option.mem_def, Option.some.injEq] at hd
          subst hd
          -- the last element of the first chunk sits at index
          -- TARGET_BLOCK_SIZE - 1 of l, the head of the next chunk at
          -- TARGET_BLOCK_SIZE.
          have hgt : TARGET_BLOCK_SIZE < l.length := by
            by_contra hle
            exact hdne (List.drop_eq_nil_of_le (by omega))
          have htne : l.take TARGET_BLOCK_SIZE ≠ [] := by
            rw [Ne, List.take_eq_nil_iff]; simp [TARGET_BLOCK_SIZE, hne]
          have httne : (l.drop TARGET_BLOCK_SIZE).take TARGET_BLOCK_SIZE ≠ [] := by
            rw [Ne, List.take_eq_nil_iff]
            simp only [TARGET_BLOCK_SIZE] at hgt ⊢
            simp [List.drop_eq_nil_iff]
            omega
          have hlen_take : (l.take TARGET_BLOCK_SIZE).length = TARGET_BLOCK_SIZE := by
            rw [List.length_take]; omega
          rw [getLastI_eq_getElem htne, headI_eq_getElem httne]
          simp only [List.getElem_take, List.getElem_drop, hlen_take]
          exact sorted_getElem_lt hs (by omega) (by omega) (by simp [TARGET_BLOCK_SIZE])

theorem build_inv (l : List Int) : (build l).Inv := by
  have hs := canonicalize_sorted l
  obtain ⟨hc, hchain⟩ := chunkList_props (canonicalize l).length _ le_rfl hs
  constructor
  · intro b hb
    rw [build] at hb
    simp only [List.mem_map] at hb
    obtain ⟨c, hcmem, rfl⟩ := hb
    obtain ⟨hne, hlen, hcs⟩ := hc c hcmem
    exact ⟨hne, hcs, rfl, rfl, le_trans hlen (by simp [TARGET_BLOCK_SIZE, MAX_BLOCK_SIZE])⟩
  · rw [build, ChainOk, List.chain'_map]
    exact hchain

theorem build_elems (l : List Int) : elems (build l) = canonicalize l := by
  rw [elems, build, List.map_map]
  have hmap : (chunkList (canonicalize l)).map (Block.data ∘ mkBlock) =
      (chunkList (canonicalize l)).map id :=
    List.map_congr_left (fun c _ => rfl)
  rw [hmap, List.map_id, chunkList_flatten]

/-! ## Block bound helpers -/

theorem Block.WF.min_le {b : Block} (h : b.WF) {y : Int} (hy : y ∈ b.data) :
    b.minVal ≤ y := h.minv ▸ sorted_headI_le h.sorted hy

theorem Block.WF.le_max {b : Block} (h : b.WF) {y : Int} (hy : y ∈ b.data) :
    y ≤ b.maxVal := h.maxv ▸ sorted_le_getLastI h.sorted hy

theorem Block.WF.min_mem {b : Block} (h : b.WF) : b.minVal ∈ b.data :=
  h.minv ▸ headI_mem h.ne

theorem Block.WF.max_mem {b : Block} (h : b.WF) : b.maxVal ∈ b.data :=
  h.maxv ▸ getLastI_mem h.ne

theorem Block.WF.min_le_max {b : Block} (h : b.WF) : b.minVal ≤ b.maxVal :=
  h.le_max h.min_mem

theorem chainOk_lt_of_lt {bs : List Block} (hwf : ∀ b ∈ bs, b.WF)
    (hch : ChainOk bs) {i j : ℕ} (hi : i < bs.length) (hj : j < bs.length)
    (hij : i < j) : bs[i].maxVal < bs[j].minVal := by
  induction j with
  | zero => omega
  | succ j ih =>
    rcases Nat.lt_or_ge i j with h | h
    · have hjlen : j < bs.length := by omega
      have h1 : bs[i].maxVal < bs[j].minVal := ih hjlen h
      have h2 : bs[j].minVal ≤ bs[j].maxVal :=
        (hwf _ (bs.getElem_mem hjlen)).min_le_max
      have h3 : bs[j].maxVal < bs[j + 1].minVal :=
        (List.chain'_iff_get.mp hch) j (by omega)
      omega
    · have : i = j := by omega
      subst this
      exact (List.chain'_iff_get.mp hch) i (by omega)

/-! ## List surgery helpers -/

theorem getD_append_cons (A : List Block) (v : Block) (B : List Block) :
    (A ++ v :: B).getD A.length default = v := by
  induction A with
  | nil => rfl
  | cons a t ih => simpa using ih

theorem set_append_cons (A : List Block) (v w : Block) (B : List Block) :
    (A ++ v :: B).set A.length w = A ++ w :: B := by
  induction A with
  | nil => rfl
  | cons a t ih => simpa using ih

theorem insertIdx_append_cons (A : List Block) (v w : Block) (B : List Block) :
    (A ++ v :: B).insertIdx (A.length + 1) w = A ++ v :: w :: B := by
  induction A with
  | nil => rfl
  | cons a t ih => simpa using ih

theorem blocks_decomp (bs : List Block) (idx : ℕ) (h : idx < bs.length) :
    bs = bs.take idx ++ bs[idx] :: bs.drop (idx + 1) := by
  conv_lhs => rw [← List.take_append_drop idx bs]
  rw [List.drop_eq_getElem_cons h]

theorem chain'_replace {α : Type} {R : α → α → Prop} {A B N : List α} {m : α}
    (h : List.Chain' R (A ++ m :: B)) (hN : List.Chain' R N) (hne : N ≠ [])
    (hhead : ∀ a ∈ A.getLast?, ∀ c ∈ N.head?, R a c)
    (hlast : ∀ c ∈ N.getLast?, ∀ b ∈ B.head?, R c b) :
    List.Chain' R (A ++ N ++ B) := by
  rw [List.chain'_append] at h
  obtain ⟨hA, hmB, hAm⟩ := h
  rw [List.chain'_cons'] at hmB
  obtain ⟨_, hB⟩ := hmB
  rw [List.append_assoc, List.chain'_append]
  refine ⟨hA, ?_, ?_⟩
  · rw [List.chain'_append]
    exact ⟨hN, hB, hlast⟩
  · intro a ha c hc
    rw [List.head?_append] at hc
    rcases Option.or_eq_some.mp hc with hc | ⟨hnone, _⟩
    · exact hhead a ha c hc
    · exact absurd hnone (by simpa using hne)

/-! ## Block.insertB specification -/

theorem dropWhile_head_of_mem {l : List Int} (hs : l.Sorted (· < ·)) {x : Int}
    (hx : x ∈ l) : (l.dropWhile (fun y => decide (y < x))).head? = some x := by
  induction l with
  | nil => cases hx
  | cons a t ih =>
    rcases List.sorted_cons.mp hs with ⟨ha, ht⟩
    by_cases hax : a < x
    · rw [List.dropWhile_cons_of_pos (by simpa using hax)]
      apply ih ht
      rcases List.mem_cons.mp hx with rfl | h
      · omega
      · exact h
    · rw [List.dropWhile_cons_of_neg (by simpa using hax)]
      rcases List.mem_cons.mp hx with rfl | h
      · simp
      · exact absurd (ha x h) hax

theorem dropWhile_ge {l : List Int} (hs : l.Sorted (· < ·)) (x : Int) :
    ∀ y ∈ l.dropWhile (fun y => decide (y < x)), x ≤ y := by
  induction l with
  | nil => simp
  | cons a t ih =>
    rcases List.sorted_cons.mp hs with ⟨ha, ht⟩
    by_cases hax : a < x
    · rw [List.dropWhile_cons_of_pos (by simpa using hax)]
      exact ih ht
    · rw [List.dropWhile_cons_of_neg (by simpa using hax)]
      intro y hy
      rcases List.mem_cons.mp hy with rfl | hy
      · omega
      · have := ha y hy
        omega

theorem insertB_of_mem {b : Block} (hs : b.data.Sorted (· < ·)) {x : Int}
    (hx : x ∈ b.data) : b.insertB x = b := by
  rw [Block.insertB]
  simp only [dropWhile_head_of_mem hs hx, if_pos rfl]
  simp

theorem insert_sorted_parts {l : List Int} (hs : l.Sorted (· < ·)) {x : Int}
    (hx : x ∉ l) :
    (l.takeWhile (fun y => decide (y < x)) ++
      x :: l.dropWhile (fun y => decide (y < x))).Sorted (· < ·) ∧
    (∀ y, y ∈ l.takeWhile (fun y => decide (y < x)) ++
      x :: l.dropWhile (fun y => decide (y < x)) ↔ y = x ∨ y ∈ l) ∧
    (l.takeWhile (fun y => decide (y < x)) ++
      x :: l.dropWhile (fun y => decide (y < x))).length = l.length + 1 := by
  set pre := l.takeWhile (fun y => decide (y < x)) with hpre
  set post := l.dropWhile (fun y => decide (y < x)) with hpostd
  have hsplit : pre ++ post = l := by
    rw [hpre, hpostd]; exact List.takeWhile_append_dropWhile _ l
  have hpre_lt : ∀ y ∈ pre, y < x := by
    intro y hy
    simpa using List.mem_takeWhile_imp hy
  have hpost_gt : ∀ y ∈ post, x < y := by
    intro y hy
    have h1 : x ≤ y := dropWhile_ge hs x y hy
    have h2 : y ≠ x := by
      rintro rfl
      exact hx ((List.dropWhile_sublist _).mem hy)
    omega
  refine ⟨?_, ?_, ?_⟩
  · rw [List.Sorted, List.pairwise_append]
    refine ⟨(hsplit ▸ hs).sublist (List.sublist_append_left _ _), ?_, ?_⟩
    · rw [List.pairwise_cons]
      exact ⟨fun y hy => hpost_gt y hy,
        (hsplit ▸ hs).sublist (List.sublist_append_right _ _)⟩
    · intro a ha c hc
      rcases List.mem_cons.mp hc with rfl | hc
      · exact hpre_lt a ha
      · exact lt_trans (hpre_lt a ha) (hpost_gt c hc)
  · intro y
    constructor
    · intro hy
      rcases List.mem_append.mp hy with hy | hy
      · exact Or.inr (hsplit ▸ List.mem_append.mpr (Or.inl hy))
      · rcases List.mem_cons.mp hy with rfl | hy
        · exact Or.inl rfl
        · exact Or.inr (hsplit ▸ List.mem_append.mpr (Or.inr hy))
    · rintro (rfl | hy)
      · exact List.mem_append.mpr (Or.inr (by simp))
      · rcases List.mem_append.mp (hsplit ▸ hy) with h | h
        · exact List.mem_append.mpr (Or.inl h)
        · exact List.mem_append.mpr (Or.inr (List.mem_cons_of_mem _ h))
  · have hl : pre.length + post.length = l.length := by
      rw [← congrArg List.length hsplit]; simp
    simp
    omega

/-- The full behaviour of `Block::insert` on a block with sorted data and
correctly cached bounds. -/
theorem insertB_spec {b : Block} (hs : b.data.Sorted (· < ·))
    (hmin : b.minVal = b.data.headI) (hmax : b.maxVal = b.data.getLastI)
    (x : Int) :
    (b.insertB x).data.Sorted (· < ·) ∧
    (b.insertB x).data ≠ [] ∧
    (∀ y, y ∈ (b.insertB x).data ↔ y = x ∨ y ∈ b.data) ∧
    (b.insertB x).minVal = (b.insertB x).data.headI ∧
    (b.insertB x).maxVal = (b.insertB x).data.getLastI ∧
    (b.insertB x).data.length ≤ b.data.length + 1 := by
  by_cases hx : x ∈ b.data
  · rw [insertB_of_mem hs hx]
    refine ⟨hs, ?_, ?_, hmin, hmax, by omega⟩
    · rintro h; rw [h] at hx; cases hx
    · intro y
      constructor
      · exact fun h => Or.inr h
      · rintro (rfl | h)
        · exact hx
        · exact h
  · have hpost : (b.data.dropWhile (fun y => decide (y < x))).head? ≠ some x := by
      intro hcon
      have : x ∈ b.data.dropWhile (fun y => decide (y < x)) :=
        List.mem_of_mem_head? hcon
      exact hx ((List.dropWhile_sublist _).mem this)
    obtain ⟨hsorted, hmem, hlen⟩ := insert_sorted_parts hs hx
    have hshape : b.insertB x =
        ⟨(b.data.takeWhile (fun y => decide (y < x)) ++
            x :: b.data.dropWhile (fun y => decide (y < x))).headI,
          (b.data.takeWhile (fun y => decide (y < x)) ++
            x :: b.data.dropWhile (fun y => decide (y < x))).getLastI,
          b.data.takeWhile (fun y => decide (y < x)) ++
            x :: b.data.dropWhile (fun y => decide (y < x))⟩ := by
      rw [Block.insertB]
      simp only [if_neg hpost]
    rw [hshape]
    refine ⟨hsorted, by simp, hmem, rfl, rfl, ?_⟩
    simp only [hlen]
    omega

/-! ## headI/getLastI of take and drop -/

theorem headI_take {l : List Int} {n : ℕ} (hn : 0 < n) (hl : l ≠ []) :
    (l.take n).headI = l.headI := by
  have htne : l.take n ≠ [] := by
    rw [Ne, List.take_eq_nil_iff]; push_neg; exact ⟨by omega, hl⟩
  rw [headI_eq_getElem htne, headI_eq_getElem hl]
  simp [List.getElem_take]

theorem getLastI_take {l : List Int} {n : ℕ} (hn : 0 < n) (hnl : n ≤ l.length) :
    have h : n - 1 < l.length := by omega
    (l.take n).getLastI = l[n - 1] := by
  intro h
  have hlne : l ≠ [] := by
    intro hcon; rw [hcon] at hnl; simp at hnl; omega
  have htne : l.take n ≠ [] := by
    rw [Ne, List.take_eq_nil_iff]; push_neg; exact ⟨by omega, hlne⟩
  rw [getLastI_eq_getElem htne]
  have hlen : (l.take n).length = n := by rw [List.length_take]; omega
  rw [List.getElem_take]
  congr 1
  rw [hlen]

theorem headI_drop {l : List Int} {n : ℕ} (hnl : n < l.length) :
    have h : n < l.length := hnl
    (l.drop n).headI = l[n] := by
  intro h
  have hdne : l.drop n ≠ [] := by rw [Ne, List.drop_eq_nil_iff]; omega
  rw [headI_eq_getElem hdne, List.getElem_drop]
  simp

theorem getLastI_drop {l : List Int} {n : ℕ} (hnl : n < l.length) :
    (l.drop n).getLastI = l.getLastI := by
  have hdne : l.drop n ≠ [] := by rw [Ne, List.drop_eq_nil_iff]; omega
  have hlne : l ≠ [] := by
    intro hcon; rw [hcon] at hnl; simp at hnl
  rw [getLastI_eq_getElem hdne, getLastI_eq_getElem hlne, List.getElem_drop]
  congr 1
  rw [List.length_drop]
  omega

theorem chainOk_consec {bs : List Block} (hch : ChainOk bs) {i : ℕ}
    (h : i + 1 < bs.length) : bs[i].maxVal < bs[i + 1].minVal := by
  have := List.chain'_iff_get.mp hch i (by omega)
  simpa using this

theorem mem_elems {e : UltimateHybridSearch} {y : Int} :
    y ∈ elems e ↔ ∃ b ∈ e.blocks, y ∈ b.data := by
  simp [elems, List.mem_flatten]

theorem split_eq_small {L : List Block} (idx : ℕ)
    (h : ¬(idx < L.length ∧ MAX_BLOCK_SIZE < (L.getD idx default).data.length)) :
    splitBlockIfNeeded ⟨L⟩ idx = ⟨L⟩ := by
  rw [UltimateHybridSearch.splitBlockIfNeeded, if_neg h]

theorem split_eq_big {L : List Block} {idx : ℕ} (h1 : idx < L.length)
    (h2 : MAX_BLOCK_SIZE < (L.getD idx default).data.length) :
    splitBlockIfNeeded ⟨L⟩ idx =
      ⟨(L.set idx
          ⟨((L.getD idx default).data.take ((L.getD idx default).data.length / 2)).headI,
            ((L.getD idx default).data.take ((L.getD idx default).data.length / 2)).getLastI,
            (L.getD idx default).data.take ((L.getD idx default).data.length / 2)⟩).insertIdx
          (idx + 1)
          ⟨((L.getD idx default).data.drop ((L.getD idx default).data.length / 2)).headI,
            ((L.getD idx default).data.drop ((L.getD idx default).data.length / 2)).getLastI,
            (L.getD idx default).data.drop ((L.getD idx default).data.length / 2)⟩⟩ := by
  rw [UltimateHybridSearch.splitBlockIfNeeded, if_pos ⟨h1, h2⟩]

/-- Engine-level `insert`: it preserves the engine invariant and its effect
on the stored element set is exactly to add `x`. -/
theorem insert_main {e : UltimateHybridSearch} (he : e.Inv) (x : Int) :
    (e.insert x).Inv ∧ ∀ y, (y ∈ elems (e.insert x) ↔ y = x ∨ y ∈ elems e) := by
  obtain ⟨hwf, hch⟩ := he
  by_cases hemp : e.blocks.isEmpty
  · -- empty engine: a fresh single block holding x
    have hbs : e.blocks = [] := List.isEmpty_iff.mp hemp
    have hd0 : (default : Block).data.Sorted (· < ·) := List.sorted_nil
    obtain ⟨hso, hne0, hmem0, hmin0, hmax0, hlen0⟩ := insertB_spec hd0 rfl rfl x
    rw [UltimateHybridSearch.insert, if_pos hemp]
    refine ⟨⟨?_, ?_⟩, ?_⟩
    · intro b hb
      have hb2 : b = Block.insertB default x := by simpa using hb
      subst hb2
      refine ⟨hne0, hso, hmin0, hmax0, ?_⟩
      have h0 : (default : Block).data.length = 0 := rfl
      rw [MAX_BLOCK_SIZE]
      omega
    · exact List.chain'_singleton _
    · intro y
      rw [mem_elems, mem_elems, hbs]
      constructor
      · rintro ⟨b, hb, hyb⟩
        have hb2 : b = Block.insertB default x := by simpa using hb
        subst hb2
        rcases (hmem0 y).mp hyb with h | h
        · exact Or.inl h
        · exact absurd h (by simp [show (default : Block).data = [] from rfl])
      · intro hy
        rcases hy with hy | hy
        · exact ⟨_, by simp, (hmem0 y).mpr (Or.inl hy)⟩
        · exact absurd hy (by simp)
  · -- nonempty engine
    have hbne : e.blocks ≠ [] := by simpa using hemp
    have hins : e.insert x =
        splitBlockIfNeeded
          ⟨e.blocks.set
            (if (e.blocks.takeWhile (fun b => decide (b.minVal ≤ x))).length = 0 then 0
              else (e.blocks.takeWhile (fun b => decide (b.minVal ≤ x))).length - 1)
            ((e.blocks.getD
              (if (e.blocks.takeWhile (fun b => decide (b.minVal ≤ x))).length = 0 then 0
                else (e.blocks.takeWhile (fun b => decide (b.minVal ≤ x))).length - 1)
              default).insertB x)⟩
          (if (e.blocks.takeWhile (fun b => decide (b.minVal ≤ x))).length = 0 then 0
            else (e.blocks.takeWhile (fun b => decide (b.minVal ≤ x))).length - 1) := by
      rw [UltimateHybridSearch.insert, if_neg hemp]
    set ub := (e.blocks.takeWhile (fun b => decide (b.minVal ≤ x))).length with hub
    set idx := if ub = 0 then 0 else ub - 1 with hidxd
    have hub_le : ub ≤ e.blocks.length := by rw [hub]; exact takeWhile_sub_length _ _
    have hlen_pos : 0 < e.blocks.length := List.length_pos.mpr hbne
    have hidx : idx < e.blocks.length := by
      rw [hidxd]
      rcases Nat.eq_zero_or_pos ub with h0 | hpos
      · rw [if_pos h0]; omega
      · rw [if_neg (by omega)]; omega
    have hminle : ∀ i, ∀ _ : i < e.blocks.length, i < ub → e.blocks[i].minVal ≤ x := by
      intro i hi2 hi
      have hi3 : i < (e.blocks.takeWhile (fun b => decide (b.minVal ≤ x))).length := by
        rw [← hub]; exact hi
      have h2 := takeWhile_pred_of_lt (fun b => decide (b.minVal ≤ x)) e.blocks i hi3
      simpa using h2
    have hxlt : ∀ _ : ub < e.blocks.length, x < e.blocks[ub].minVal := by
      intro hu
      have hu2 : (e.blocks.takeWhile (fun b => decide (b.minVal ≤ x))).length <
          e.blocks.length := by rw [← hub]; exact hu
      have h2 := takeWhile_pred_at_length (fun b => decide (b.minVal ≤ x)) e.blocks hu2
      simp only [← hub] at h2
      simp only [decide_eq_false_iff_not] at h2
      omega
    have hbwf : e.blocks[idx].WF := hwf _ (e.blocks.getElem_mem hidx)
    obtain ⟨hso, hne, hmem, hmin, hmax, hlen⟩ :=
      insertB_spec hbwf.sorted hbwf.minv hbwf.maxv x
    set b2 := e.blocks[idx].insertB x with hb2
    have hgetD : e.blocks.getD idx default = e.blocks[idx] := by
      rw [List.getD_eq_getElem?_getD, List.getElem?_eq_getElem hidx]; rfl
    have hleft : ∀ a ∈ (e.blocks.take idx).getLast?, a.maxVal < b2.minVal := by
      intro a ha
      rw [Option.mem_def] at ha
      have hAne : e.blocks.take idx ≠ [] := by
        intro hcon; rw [hcon] at ha; simp at ha
      have hidxpos : 0 < idx := by
        rcases Nat.eq_zero_or_pos idx with h0 | h
        · rw [h0] at hAne; simp at hAne
        · exact h
      have hlent : (e.blocks.take idx).length = idx := by
        rw [List.length_take]; omega
      have ha2 : a = e.blocks[idx - 1] := by
        rw [List.getLast?_eq_getElem?, hlent, List.getElem?_take_of_lt (by omega),
          List.getElem?_eq_getElem (by omega)] at ha
        exact (Option.some.inj ha).symm
      have hchain1 : e.blocks[idx - 1].maxVal < e.blocks[idx - 1 + 1].minVal :=
        chainOk_consec hch (by omega)
      simp only [Nat.sub_add_cancel hidxpos] at hchain1
      have hminmem : b2.minVal ∈ b2.data := by rw [hmin]; exact headI_mem hne
      rcases (hmem _).mp hminmem with hxx | hbb
      · have hub0 : ub ≠ 0 := by
          intro h0; rw [hidxd, if_pos h0] at hidxpos; omega
        have hiub : idx < ub := by
          rw [hidxd, if_neg hub0]; omega
        have hminx : e.blocks[idx].minVal ≤ x := hminle idx hidx hiub
        rw [ha2, hxx]; omega
      · have := hbwf.min_le hbb
        rw [ha2]; omega
    have hright : ∀ c ∈ (e.blocks.drop (idx + 1)).head?, b2.maxVal < c.minVal := by
      intro c hc
      rw [Option.mem_def, List.head?_eq_getElem?, List.getElem?_drop] at hc
      have hi1 : idx + 1 < e.blocks.length := by
        by_contra hcon
        push_neg at hcon
        rw [List.getElem?_eq_none (by omega)] at hc
        cases hc
      have hc2 : c = e.blocks[idx + 1] := by
        rw [show idx + 1 + 0 = idx + 1 by omega, List.getElem?_eq_getElem hi1] at hc
        exact (Option.some.inj hc).symm
      have hmaxmem : b2.maxVal ∈ b2.data := by rw [hmax]; exact getLastI_mem hne
      have hchain2 : e.blocks[idx].maxVal < e.blocks[idx + 1].minVal :=
        chainOk_consec hch hi1
      rcases (hmem _).mp hmaxmem with hxx | hbb
      · rcases Nat.eq_zero_or_pos ub with h0 | hpos
        · have hidx0 : idx = 0 := by rw [hidxd, if_pos h0]
          have hu2 : ub < e.blocks.length := by omega
          have hxminu := hxlt hu2
          have hmm : e.blocks[0].minVal ≤ e.blocks[0].maxVal :=
            (hwf _ (e.blocks.getElem_mem (by omega))).min_le_max
          rw [hc2, hxx]
          simp only [hidx0] at hchain2 ⊢
          simp only [h0] at hxminu
          omega
        · have hub0 : ub ≠ 0 := by omega
          have hub_eq : idx + 1 = ub := by rw [hidxd, if_neg hub0]; omega
          have hu2 : ub < e.blocks.length := by omega
          have hxminu := hxlt hu2
          rw [hc2, hxx]
          have heq2 : e.blocks[idx + 1].minVal = e.blocks[ub].minVal := by
            simp only [hub_eq]
          omega
      · have h1 : b2.maxVal ≤ e.blocks[idx].maxVal := hbwf.le_max hbb
        rw [hc2]; omega
    obtain ⟨A, B, hAB, hAlen, hLft, hRgt⟩ :
        ∃ A B, e.blocks = A ++ e.blocks[idx] :: B ∧ A.length = idx ∧
          (∀ a ∈ A.getLast?, a.maxVal < b2.minVal) ∧
          (∀ c ∈ B.head?, b2.maxVal < c.minVal) :=
      ⟨e.blocks.take idx, e.blocks.drop (idx + 1), blocks_decomp _ _ hidx,
        by rw [List.length_take]; omega, hleft, hright⟩
    have hset2 : e.blocks.set idx b2 = A ++ b2 :: B := by
      have h := set_append_cons A e.blocks[idx] b2 B
      rw [hAlen] at h
      rw [← hAB] at h
      exact h
    have hgetD2 : (e.blocks.set idx b2).getD idx default = b2 := by
      rw [hset2]
      have h := getD_append_cons A b2 B
      rw [hAlen] at h
      exact h
    have hch2 : List.Chain' (fun a b => a.maxVal < b.minVal)
        (A ++ e.blocks[idx] :: B) := by rw [← hAB]; exact hch
    have hsetgen : ∀ w : Block, e.blocks.set idx w = A ++ w :: B := by
      intro w
      have h := set_append_cons A e.blocks[idx] w B
      rw [hAlen] at h
      rw [← hAB] at h
      exact h
    rw [hins, hgetD, ← hb2]
    rcases Nat.lt_or_ge MAX_BLOCK_SIZE b2.data.length with hsz | hsz
    · -- the updated block is oversized: one split happens
      have hdlen : b2.data.length ≤ MAX_BLOCK_SIZE + 1 := by
        have := hbwf.small
        omega
      have hmid1 : 1 ≤ b2.data.length / 2 := by
        rw [MAX_BLOCK_SIZE] at hsz; omega
      have hmidlt : b2.data.length / 2 < b2.data.length := by
        rw [MAX_BLOCK_SIZE] at hsz; omega
      have hLne : b2.data.take (b2.data.length / 2) ≠ [] := by
        rw [Ne, List.take_eq_nil_iff]; push_neg; exact ⟨by omega, hne⟩
      have hRne : b2.data.drop (b2.data.length / 2) ≠ [] := by
        rw [Ne, List.drop_eq_nil_iff]; omega
      have h1s : idx < (e.blocks.set idx b2).length := by simpa using hidx
      have h2s : MAX_BLOCK_SIZE <
          ((e.blocks.set idx b2).getD idx default).data.length := by
        rw [hgetD2]; exact hsz
      have hsplit2 := split_eq_big h1s h2s
      simp only [hgetD2] at hsplit2
      simp only [List.set_set] at hsplit2
      set LB : Block := ⟨(b2.data.take (b2.data.length / 2)).headI,
        (b2.data.take (b2.data.length / 2)).getLastI,
        b2.data.take (b2.data.length / 2)⟩ with hLB
      set RB : Block := ⟨(b2.data.drop (b2.data.length / 2)).headI,
        (b2.data.drop (b2.data.length / 2)).getLastI,
        b2.data.drop (b2.data.length / 2)⟩ with hRB
      rw [hsetgen LB] at hsplit2
      have hii := insertIdx_append_cons A LB RB B
      rw [hAlen] at hii
      rw [hii] at hsplit2
      have hLwf : LB.WF := by
        refine ⟨hLne, hso.sublist (List.take_sublist _ _), rfl, rfl, ?_⟩
        rw [hLB]
        show (b2.data.take (b2.data.length / 2)).length ≤ MAX_BLOCK_SIZE
        rw [List.length_take]
        rw [MAX_BLOCK_SIZE] at hdlen ⊢
        omega
      have hRwf : RB.WF := by
        refine ⟨hRne, hso.sublist (List.drop_sublist _ _), rfl, rfl, ?_⟩
        rw [hRB]
        show (b2.data.drop (b2.data.length / 2)).length ≤ MAX_BLOCK_SIZE
        rw [List.length_drop]
        rw [MAX_BLOCK_SIZE] at hdlen ⊢
        omega
      have hLmin : LB.minVal = b2.minVal := by
        show (b2.data.take (b2.data.length / 2)).headI = b2.minVal
        rw [headI_take hmid1 hne, hmin]
      have hRmax : RB.maxVal = b2.maxVal := by
        show (b2.data.drop (b2.data.length / 2)).getLastI = b2.maxVal
        rw [getLastI_drop hmidlt, hmax]
      have hLRchain : LB.maxVal < RB.minVal := by
        show (b2.data.take (b2.data.length / 2)).getLastI <
          (b2.data.drop (b2.data.length / 2)).headI
        rw [getLastI_take hmid1 (le_of_lt hmidlt), headI_drop hmidlt]
        exact sorted_getElem_lt hso (by omega) (by omega) (by omega)
      rw [hsplit2]
      constructor
      · constructor
        · intro bb hbb
          have hbb2 : bb ∈ A ++ LB :: RB :: B := hbb
          rcases List.mem_append.mp hbb2 with hA2 | hN
          · exact hwf _ (by rw [hAB]; exact List.mem_append.mpr (Or.inl hA2))
          · rcases List.mem_cons.mp hN with rfl | hN2
            · exact hLwf
            · rcases List.mem_cons.mp hN2 with rfl | hN3
              · exact hRwf
              · exact hwf _ (by
                  rw [hAB]
                  exact List.mem_append.mpr (Or.inr (List.mem_cons_of_mem _ hN3)))
        · show ChainOk (A ++ LB :: RB :: B)
          have hN : List.Chain' (fun a b => a.maxVal < b.minVal) [LB, RB] :=
            List.chain'_cons.mpr ⟨hLRchain, List.chain'_singleton _⟩
          have hrep := chain'_replace hch2 hN (by simp)
            (by
              intro a ha c hc
              have hc3 : LB = c := by simpa using hc
              subst hc3
              rw [hLmin]
              exact hLft a ha)
            (by
              intro c hc bb hbb3
              have hc3 : RB = c := by simpa using hc
              subst hc3
              rw [hRmax]
              exact hRgt bb hbb3)
          have hre : A ++ [LB, RB] ++ B = A ++ LB :: RB :: B := by simp
          rw [← hre]
          exact hrep
      · intro y
        rw [mem_elems, mem_elems]
        constructor
        · rintro ⟨bb, hbb, hyb⟩
          have hbb2 : bb ∈ A ++ LB :: RB :: B := hbb
          rcases List.mem_append.mp hbb2 with hA2 | hN
          · exact Or.inr ⟨bb, by
              rw [hAB]; exact List.mem_append.mpr (Or.inl hA2), hyb⟩
          · rcases List.mem_cons.mp hN with rfl | hN2
            · have hyb2 : y ∈ b2.data := (List.take_sublist _ _).mem hyb
              rcases (hmem y).mp hyb2 with h | h
              · exact Or.inl h
              · exact Or.inr ⟨e.blocks[idx], e.blocks.getElem_mem hidx, h⟩
            · rcases List.mem_cons.mp hN2 with rfl | hN3
              · have hyb2 : y ∈ b2.data := (List.drop_sublist _ _).mem hyb
                rcases (hmem y).mp hyb2 with h | h
                · exact Or.inl h
                · exact Or.inr ⟨e.blocks[idx], e.blocks.getElem_mem hidx, h⟩
              · exact Or.inr ⟨bb, by
                  rw [hAB]
                  exact List.mem_append.mpr
                    (Or.inr (List.mem_cons_of_mem _ hN3)), hyb⟩
        · have hsub : ∀ z, z ∈ b2.data → ∃ bb ∈ A ++ LB :: RB :: B, z ∈ bb.data := by
            intro z hz
            rw [← List.take_append_drop (b2.data.length / 2) b2.data] at hz
            rcases List.mem_append.mp hz with h | h
            · exact ⟨LB, List.mem_append.mpr (Or.inr (List.mem_cons_self _ _)), h⟩
            · exact ⟨RB, List.mem_append.mpr
                (Or.inr (List.mem_cons_of_mem _ (List.mem_cons_self _ _))), h⟩
          rintro (rfl | ⟨bb, hbb, hyb⟩)
          · exact hsub _ ((hmem _).mpr (Or.inl rfl))
          · rw [hAB] at hbb
            rcases List.mem_append.mp hbb with hA2 | hN
            · exact ⟨bb, List.mem_append.mpr (Or.inl hA2), hyb⟩
            · rcases List.mem_cons.mp hN with rfl | hN3
              · exact hsub y ((hmem y).mpr (Or.inr hyb))
              · exact ⟨bb, List.mem_append.mpr
                  (Or.inr (List.mem_cons_of_mem _ (List.mem_cons_of_mem _ hN3))), hyb⟩
    · -- no split: the block stays within the cap
      have hnos : splitBlockIfNeeded ⟨e.blocks.set idx b2⟩ idx =
          ⟨e.blocks.set idx b2⟩ :=
        split_eq_small idx (by
          push_neg
          intro _
          rw [hgetD2]
          exact hsz)
      rw [hnos]
      constructor
      · constructor
        · intro bb hbb
          have hbb2 : bb ∈ A ++ b2 :: B := by rw [← hset2]; exact hbb
          rcases List.mem_append.mp hbb2 with hA2 | hN
          · exact hwf _ (by rw [hAB]; exact List.mem_append.mpr (Or.inl hA2))
          · rcases List.mem_cons.mp hN with rfl | hN3
            · exact ⟨hne, hso, hmin, hmax, hsz⟩
            · exact hwf _ (by
                rw [hAB]
                exact List.mem_append.mpr (Or.inr (List.mem_cons_of_mem _ hN3)))
        · show ChainOk (e.blocks.set idx b2)
          rw [ChainOk, hset2]
          have hrep := chain'_replace hch2 (List.chain'_singleton b2) (by simp)
            (by
              intro a ha c hc
              have hc3 : b2 = c := by simpa using hc
              subst hc3
              exact hLft a ha)
            (by
              intro c hc bb hbb3
              have hc3 : b2 = c := by simpa using hc
              subst hc3
              exact hRgt bb hbb3)
          have hre : A ++ [b2] ++ B = A ++ b2 :: B := by simp
          rw [← hre]
          exact hrep
      · intro y
        rw [mem_elems, mem_elems]
        constructor
        · rintro ⟨bb, hbb, hyb⟩
          have hbb2 : bb ∈ A ++ b2 :: B := by rw [← hset2]; exact hbb
          rcases List.mem_append.mp hbb2 with hA2 | hN
          · exact Or.inr ⟨bb, by
              rw [hAB]; exact List.mem_append.mpr (Or.inl hA2), hyb⟩
          · rcases List.mem_cons.mp hN with rfl | hN3
            · rcases (hmem y).mp hyb with h | h
              · exact Or.inl h
              · exact Or.inr ⟨e.blocks[idx], e.blocks.getElem_mem hidx, h⟩
            · exact Or.inr ⟨bb, by
                rw [hAB]
                exact List.mem_append.mpr
                  (Or.inr (List.mem_cons_of_mem _ hN3)), hyb⟩
        · rintro (rfl | ⟨bb, hbb, hyb⟩)
          · refine ⟨b2, ?_, (hmem _).mpr (Or.inl rfl)⟩
            show b2 ∈ e.blocks.set idx b2
            rw [hset2]
            exact List.mem_append.mpr (Or.inr (List.mem_cons_self _ _))
          · rw [hAB] at hbb
            rcases List.mem_append.mp hbb with hA2 | hN
            · refine ⟨bb, ?_, hyb⟩
              show bb ∈ e.blocks.set idx b2
              rw [hset2]
              exact List.mem_append.mpr (Or.inl hA2)
            · rcases List.mem_cons.mp hN with rfl | hN3
              · refine ⟨b2, ?_, (hmem y).mpr (Or.inr hyb)⟩
                show b2 ∈ e.blocks.set idx b2
                rw [hset2]
                exact List.mem_append.mpr (Or.inr (List.mem_cons_self _ _))
              · refine ⟨bb, ?_, hyb⟩
                show bb ∈ e.blocks.set idx b2
                rw [hset2]
                exact List.mem_append.mpr (Or.inr (List.mem_cons_of_mem _ hN3))

/-- Invariant and element set after a whole sequence of engine inserts. -/
theorem applyInserts_main (xs : List Int) :
    ∀ (e : UltimateHybridSearch), e.Inv →
    (e.applyInserts xs).Inv ∧
      ∀ y, (y ∈ elems (e.applyInserts xs) ↔ y ∈ xs ∨ y ∈ elems e) := by
  induction xs with
  | nil =>
    intro e he
    exact ⟨he, fun y => by simp [applyInserts]⟩
  | cons a rest ih =>
    intro e he
    have hstep := insert_main he a
    have hrest := ih (e.insert a) hstep.1
    have heq : e.applyInserts (a :: rest) = (e.insert a).applyInserts rest := rfl
    rw [heq]
    refine ⟨hrest.1, fun y => ?_⟩
    rw [hrest.2 y, hstep.2 y]
    constructor
    · rintro (h | h | h)
      · exact Or.inl (List.mem_cons_of_mem _ h)
      · exact Or.inl (h ▸ List.mem_cons_self _ _)
      · exact Or.inr h
    · rintro (h | h)
      · rcases List.mem_cons.mp h with rfl | h
        · exact Or.inr (Or.inl rfl)
        · exact Or.inl h
      · exact Or.inr (Or.inr h)

theorem takeWhile_length_eq {α : Type} (p : α → Bool) (l : List α) (k : ℕ)
    (hk : k ≤ l.length)
    (h1 : ∀ i, ∀ _ : i < l.length, i < k → p l[i] = true)
    (h2 : ∀ _ : k < l.length, p l[k] = false) :
    (l.takeWhile p).length = k := by
  rcases Nat.lt_trichotomy (l.takeWhile p).length k with h | h | h
  · have hlt : (l.takeWhile p).length < l.length := by omega
    have hfalse := takeWhile_pred_at_length p l hlt
    have htrue := h1 _ hlt h
    rw [htrue] at hfalse
    cases hfalse
  · exact h
  · have hklen : k < l.length := lt_of_lt_of_le h (takeWhile_sub_length p l)
    have htrue := takeWhile_pred_of_lt p l k h
    have hfalse := h2 hklen
    rw [htrue] at hfalse
    cases hfalse

theorem set_getElem_self {l : List Block} : ∀ {n : ℕ}, ∀ _ : n < l.length,
    l.set n l[n] = l := by
  induction l with
  | nil => intro n h; simp at h
  | cons a t ih =>
    intro n h
    cases n with
    | zero => simp
    | succ m =>
      have hm : m < t.length := by simpa using h
      simp only [List.getElem_cons_succ, List.set_cons_succ]
      rw [ih hm]

/-! ## Truncation facts -/

theorem getE_eq {l : List Int} {i : ℕ} (h : i < l.length) : getE l i = some l[i] := by
  rw [getE, List.getElem?_eq_getElem h]

theorem getE_some {l : List Int} {i : ℕ} {m : Int} (h : getE l i = some m) :
    ∃ hi : i < l.length, l[i] = m := by
  rw [getE] at h
  exact List.getElem?_eq_some.mp h

theorem ratTrunc_nonneg {q : ℚ} (h : 0 ≤ q) : 0 ≤ ratTrunc q := by
  rw [ratTrunc]
  have hn : 0 ≤ q.num := Rat.num_nonneg.mpr h
  exact mul_nonneg (Int.sign_nonneg.mpr hn) (Int.ofNat_nonneg _)

theorem ratTrunc_eq_floor {q : ℚ} (h : 0 ≤ q) : ratTrunc q = ⌊q⌋ := by
  rw [Rat.floor_def, ratTrunc]
  rcases eq_or_lt_of_le (Rat.num_nonneg.mpr h) with h0 | hpos
  · rw [← h0]; simp
  · rw [Int.sign_eq_one_of_pos hpos, one_mul]
    conv_rhs => rw [show q.num = (q.num.natAbs : ℤ) from (Int.natAbs_of_nonneg (le_of_lt hpos)).symm]

theorem ratTrunc_le {q : ℚ} (h : 0 ≤ q) : (ratTrunc q : ℚ) ≤ q := by
  rw [ratTrunc_eq_floor h]
  exact Int.floor_le q

theorem toSizeT_of_window {q : ℚ} {high : ℕ} (h0 : 0 < q) (hh : q < high)
    (hmod : high ≤ SIZE_T_MOD) : ∃ t, toSizeT q = some t := by
  have h1 : 0 ≤ ratTrunc q := ratTrunc_nonneg (le_of_lt h0)
  have h2 : (ratTrunc q : ℚ) ≤ q := ratTrunc_le (le_of_lt h0)
  have h3 : ratTrunc q < (SIZE_T_MOD : ℤ) := by
    have hq : (ratTrunc q : ℚ) < (SIZE_T_MOD : ℚ) :=
      lt_of_le_of_lt h2 (lt_of_lt_of_le hh (by exact_mod_cast hmod))
    exact_mod_cast hq
  rw [toSizeT]
  rw [if_neg (by push_neg; exact ⟨by omega, by omega⟩)]
  exact ⟨_, rfl⟩

theorem ratTrunc_nonpos {q : ℚ} (h : q < 0) : ratTrunc q ≤ 0 := by
  rw [ratTrunc]
  have hn : q.num < 0 := Rat.num_neg.mpr h
  have hs : q.num.sign = -1 := Int.sign_eq_neg_one_of_neg hn
  rw [hs]
  have : (0 : ℤ) ≤ (q.num.natAbs / q.den : ℕ) := Int.ofNat_nonneg _
  omega

theorem ratTrunc_zero_of_neg_gt {q : ℚ} (h1 : -1 < q) (h2 : q < 0) :
    ratTrunc q = 0 := by
  have hn : q.num < 0 := Rat.num_neg.mpr h2
  have hd : -(q.den : ℤ) < q.num := by
    have hlt : (-1 : ℚ).num * q.den < q.num * (-1 : ℚ).den := Rat.lt_def.mp h1
    simpa using hlt
  have habs : q.num.natAbs < q.den := by omega
  rw [ratTrunc,
    show ((q.num.natAbs : ℤ) / (q.den : ℤ)) = ((q.num.natAbs / q.den : ℕ) : ℤ) from rfl,
    Nat.div_eq_of_lt habs]
  simp

/-! ## Scalar-stage lemmas -/

theorem scalarLoop_found {l : List Int} (hs : l.Sorted (· < ·)) {x : Int} :
    ∀ fuel low high i, low ≤ i → i ≤ high → high < l.length →
    ∀ hi : i < l.length, l[i] = x → high + 1 - low ≤ fuel →
    scalarLoop l x fuel low high = some true := by
  intro fuel
  induction fuel with
  | zero => intro low high i h1 h2 h3 hi h4 h5; omega
  | succ f ih =>
    intro low high i h1 h2 h3 hi hx hfuel
    rw [scalarLoop, if_neg (by omega)]
    have hd2 : (high - low) / 2 ≤ high - low := Nat.div_le_self _ _
    have hmidlt : low + (high - low) / 2 < l.length := by omega
    rw [getE_eq hmidlt]
    by_cases he : l[low + (high - low) / 2] = x
    · simp [he]
    · by_cases hlt : l[low + (high - low) / 2] < x
      · simp only [if_neg he, if_pos hlt]
        have himid : low + (high - low) / 2 < i := by
          by_contra hc
          push_neg at hc
          have := sorted_getElem_le hs hi hmidlt hc
          omega
        exact ih (low + (high - low) / 2 + 1) high i (by omega) h2 h3 hi hx (by omega)
      · simp only [if_neg he, if_neg hlt]
        have himid : i < low + (high - low) / 2 := by
          by_contra hc
          push_neg at hc
          have := sorted_getElem_le hs hmidlt hi hc
          omega
        have hmid0 : ¬ (low + (high - low) / 2 = 0) := by omega
        rw [if_neg hmid0]
        exact ih low (low + (high - low) / 2 - 1) i h1 (by omega) (by omega) hi hx
          (by omega)

theorem scalarLoop_notfound {l : List Int} (hs : l.Sorted (· < ·)) {x : Int} :
    ∀ fuel low high, low ≤ high + 1 → high < l.length →
    (1 ≤ low ∨ (l ≠ [] ∧ l.headI ≤ x)) →
    (∀ i, low ≤ i → i ≤ high → ∀ _ : i < l.length, l[i] ≠ x) →
    high + 2 - low ≤ fuel →
    scalarLoop l x fuel low high = some false := by
  intro fuel
  induction fuel with
  | zero => intro low high h0 h1 h2 h3 h4; omega
  | succ f ih =>
    intro low high hlow1 hhigh hsafe habs hfuel
    rw [scalarLoop]
    by_cases hlh : high < low
    · rw [if_pos hlh]
    · rw [if_neg hlh]
      push_neg at hlh
      have hd2 : (high - low) / 2 ≤ high - low := Nat.div_le_self _ _
      have hmidlt : low + (high - low) / 2 < l.length := by omega
      rw [getE_eq hmidlt]
      have hne2 : l[low + (high - low) / 2] ≠ x :=
        habs _ (by omega) (by omega) hmidlt
      by_cases hlt : l[low + (high - low) / 2] < x
      · simp only [if_neg hne2, if_pos hlt]
        exact ih (low + (high - low) / 2 + 1) high (by omega) hhigh
          (Or.inl (by omega))
          (fun i hi1 hi2 hi3 => habs i (by omega) hi2 hi3) (by omega)
      · simp only [if_neg hne2, if_neg hlt]
        have hmid0 : ¬ (low + (high - low) / 2 = 0) := by
          intro h0
          have hlow0 : low = 0 := by omega
          rcases hsafe with h | ⟨hlp, hhx⟩
          · omega
          · have h0l : 0 < l.length := List.length_pos.mpr hlp
            have hh0 : l.headI = l[0] := headI_eq_getElem hlp
            have hx0 : l[0] ≤ x := by rw [← hh0]; exact hhx
            have : l[low + (high - low) / 2] = l[0] := by
              congr 1
            omega
        rw [if_neg hmid0]
        exact ih low (low + (high - low) / 2 - 1) (by omega) (by omega) hsafe
          (fun i h1 h2 h3 => habs i h1 (by omega) h3) (by omega)

/-! ## Stage-1 step equations and facts -/

theorem clampChecked_some {v lo hi mid : ℕ} (h : clampChecked v lo hi = some mid) :
    lo ≤ hi ∧ lo ≤ mid ∧ mid ≤ hi := by
  rw [clampChecked] at h
  by_cases hlh : hi < lo
  · rw [if_pos hlh] at h; cases h
  · rw [if_neg hlh] at h
    have hm : max lo (min v hi) = mid := Option.some.inj h
    refine ⟨by omega, ?_, ?_⟩
    · rw [← hm]; exact le_max_left _ _
    · rw [← hm]; exact max_le (by omega) (min_le_right _ _)

theorem lanesLt_eq {l : List Int} {x : Int} {base : ℕ} (hs : l.Sorted (· < ·))
    (h : base + 7 < l.length) :
    lanesLt l x base = some (decide (l[base + 7] < x)) := by
  have h0 : base < l.length := by omega
  have h1 : base + 1 < l.length := by omega
  have h2 : base + 2 < l.length := by omega
  have h3 : base + 3 < l.length := by omega
  have h4 : base + 4 < l.length := by omega
  have h5 : base + 5 < l.length := by omega
  have h6 : base + 6 < l.length := by omega
  simp only [lanesLt, getE_eq h0, getE_eq h1, getE_eq h2, getE_eq h3,
    getE_eq h4, getE_eq h5, getE_eq h6, getE_eq h]
  congr 1
  by_cases h7 : l[base + 7] < x
  · have s0 : l[base] < x :=
      lt_of_le_of_lt (sorted_getElem_le hs h0 h (by omega)) h7
    have s1 : l[base + 1] < x :=
      lt_of_le_of_lt (sorted_getElem_le hs h1 h (by omega)) h7
    have s2 : l[base + 2] < x :=
      lt_of_le_of_lt (sorted_getElem_le hs h2 h (by omega)) h7
    have s3 : l[base + 3] < x :=
      lt_of_le_of_lt (sorted_getElem_le hs h3 h (by omega)) h7
    have s4 : l[base + 4] < x :=
      lt_of_le_of_lt (sorted_getElem_le hs h4 h (by omega)) h7
    have s5 : l[base + 5] < x :=
      lt_of_le_of_lt (sorted_getElem_le hs h5 h (by omega)) h7
    have s6 : l[base + 6] < x :=
      lt_of_le_of_lt (sorted_getElem_le hs h6 h (by omega)) h7
    simp [s0, s1, s2, s3, s4, s5, s6, h7]
  · simp [h7]

theorem simdLoop_window {l : List Int} (hs : l.Sorted (· < ·)) {x : Int} :
    ∀ fuel low high, low ≤ high → high < l.length → high - low + 1 ≤ fuel →
    ∃ low2 high2, simdLoop l x fuel low high = some (low2, high2) ∧
      low ≤ low2 ∧ low2 ≤ high2 ∧ high2 ≤ high ∧
      ∀ i, low ≤ i → i ≤ high → ∀ hi : i < l.length, l[i] = x →
        low2 ≤ i ∧ i ≤ high2 := by
  intro fuel
  induction fuel with
  | zero => intro low high h1 h2 h3; omega
  | succ f ih =>
    intro low high hlh hhigh hfuel
    rw [simdLoop]
    by_cases hw : 32 < high - low
    · rw [if_pos hw]
      have hd2 : (high - low) / 2 ≤ high - low := Nat.div_le_self _ _
      have hm8 : low + (high - low) / 2 + 8 < high := by omega
      have hb7 : low + (high - low) / 2 + 7 < l.length := by omega
      rw [lanesLt_eq hs hb7]
      by_cases h7 : l[low + (high - low) / 2 + 7] < x
      · rw [decide_eq_true h7]
        obtain ⟨l2, h2, heq, hg1, hg2, hg3, htr⟩ :=
          ih (low + (high - low) / 2 + 8) high (by omega) hhigh (by omega)
        refine ⟨l2, h2, heq, by omega, hg2, hg3, ?_⟩
        intro i hi1 hi2 hi hix
        have hige : low + (high - low) / 2 + 8 ≤ i := by
          by_contra hc
          push_neg at hc
          have hle7 : l[i] ≤ l[low + (high - low) / 2 + 7] :=
            sorted_getElem_le hs hi hb7 (by omega)
          omega
        exact htr i hige hi2 hi hix
      · rw [decide_eq_false h7]
        obtain ⟨l2, h2, heq, hg1, hg2, hg3, htr⟩ :=
          ih low (low + (high - low) / 2 + 8) (by omega) (by omega) (by omega)
        refine ⟨l2, h2, heq, hg1, hg2, by omega, ?_⟩
        intro i hi1 hi2 hi hix
        have hile : i ≤ low + (high - low) / 2 + 8 := by
          by_contra hc
          push_neg at hc
          have hgt7 : l[low + (high - low) / 2 + 7] < l[i] :=
            sorted_getElem_lt hs hb7 hi (by omega)
          omega
        exact htr i hi1 hile hi hix
    · rw [if_neg hw]
      exact ⟨low, high, rfl, le_rfl, hlh, le_rfl, fun i h1 h2 _ _ => ⟨h1, h2⟩⟩

theorem stage1_present {l : List Int} (hs : l.Sorted (· < ·)) {x : Int}
    (hmod : l.length ≤ SIZE_T_MOD) :
    ∀ steps low high i, low ≤ i → i ≤ high → high < l.length →
    ∀ hi : i < l.length, l[i] = x →
    (stage1 l x steps low high = .found true ∨
      ∃ low2 high2, stage1 l x steps low high = .window low2 high2 ∧
        low2 ≤ high2 ∧ high2 < l.length ∧
        ∃ j, low2 ≤ j ∧ j ≤ high2 ∧ ∃ hj : j < l.length, l[j] = x) := by
  intro steps
  induction steps with
  | zero =>
    intro low high i h1 h2 h3 hi hx
    exact Or.inr ⟨low, high, rfl, by omega, h3, i, h1, h2, hi, hx⟩
  | succ st ih =>
    intro low high i h1 h2 h3 hi hx
    have hlow : low < l.length := by omega
    rw [stage1, if_neg (show ¬ high < low by omega), getE_eq hlow, getE_eq h3]
    by_cases hax : l[low] = x ∨ l[high] = x
    · simp only [if_pos hax]
      first
      | exact Or.inl trivial
      | exact Or.inl rfl
    · push_neg at hax
      obtain ⟨hax1, hax2⟩ := hax
      have hil : low < i := by
        rcases Nat.lt_or_ge low i with h | h
        · exact h
        · have heq : low = i := by omega
          subst heq
          exact absurd hx hax1
      have hih : i < high := by
        rcases Nat.lt_or_ge i high with h | h
        · exact h
        · have heq : i = high := by omega
          subst heq
          exact absurd hx hax2
      have halt : l[low] < x := by rw [← hx]; exact sorted_getElem_lt hs hlow hi hil
      have hblt : x < l[high] := by rw [← hx]; exact sorted_getElem_lt hs hi h3 hih
      have hba : ¬ (l[high] - l[low] = 0) := by omega
      have hnum : (0 : ℚ) < ((x - l[low] : ℤ) : ℚ) := by
        have h9 : (0 : ℤ) < x - l[low] := by omega
        exact_mod_cast h9
      have hden : (0 : ℚ) < ((l[high] - l[low] : ℤ) : ℚ) := by
        have h9 : (0 : ℤ) < l[high] - l[low] := by omega
        exact_mod_cast h9
      have hratio : ((x - l[low] : ℤ) : ℚ) / ((l[high] - l[low] : ℤ) : ℚ) < 1 := by
        rw [div_lt_one hden]
        have h9 : (x - l[low] : ℤ) < (l[high] - l[low] : ℤ) := by omega
        exact_mod_cast h9
      have hwid : (0 : ℚ) < ((high - low : ℕ) : ℚ) := by
        have h9 : 0 < high - low := by omega
        exact_mod_cast h9
      have hposgt : (low : ℚ) < (low : ℚ) +
          ((x - l[low] : ℤ) : ℚ) / ((l[high] - l[low] : ℤ) : ℚ) *
            ((high - low : ℕ) : ℚ) := by
        have h9 := mul_pos (div_pos hnum hden) hwid
        linarith
      have hcast : ((high - low : ℕ) : ℚ) = (high : ℚ) - (low : ℚ) := by
        rw [Nat.cast_sub (by omega : low ≤ high)]
      have hposlt : (low : ℚ) +
          ((x - l[low] : ℤ) : ℚ) / ((l[high] - l[low] : ℤ) : ℚ) *
            ((high - low : ℕ) : ℚ) < (high : ℚ) := by
        have hm : ((x - l[low] : ℤ) : ℚ) / ((l[high] - l[low] : ℤ) : ℚ) *
            ((high - low : ℕ) : ℚ) < 1 * ((high - low : ℕ) : ℚ) :=
          mul_lt_mul_of_pos_right hratio hwid
        rw [one_mul] at hm
        rw [hcast] at hm ⊢
        linarith
      have h0le : (0 : ℚ) ≤ (low : ℚ) := by positivity
      obtain ⟨t, ht⟩ := toSizeT_of_window (lt_of_le_of_lt h0le hposgt) hposlt
        (by omega)
      have hclamp : clampChecked t (low + 1)
          (if high = 0 then SIZE_T_MOD - 1 else high - 1) =
          some (max (low + 1) (min t (high - 1))) := by
        rw [if_neg (show ¬ high = 0 by omega), clampChecked,
          if_neg (show ¬ high - 1 < low + 1 by omega)]
      have hmidub : max (low + 1) (min t (high - 1)) ≤ high - 1 :=
        max_le (by omega) (min_le_right _ _)
      have hmidlt : max (low + 1) (min t (high - 1)) < l.length := by omega
      simp only [if_neg (show ¬ (l[low] = x ∨ l[high] = x) from by
        push_neg; exact ⟨hax1, hax2⟩), if_neg hba, ht, hclamp, getE_eq hmidlt]
      by_cases hmx : l[max (low + 1) (min t (high - 1))] = x
      · simp only [if_pos hmx]
        first
      | exact Or.inl trivial
      | exact Or.inl rfl
      · simp only [if_neg hmx]
        by_cases hmlt : l[max (low + 1) (min t (high - 1))] < x
        · simp only [if_pos hmlt]
          have himid : max (low + 1) (min t (high - 1)) < i := by
            by_contra hc
            push_neg at hc
            have h9 := sorted_getElem_le hs hi hmidlt hc
            omega
          exact ih (max (low + 1) (min t (high - 1)) + 1) high i (by omega) h2 h3
            hi hx
        · simp only [if_neg hmlt]
          have himid : i < max (low + 1) (min t (high - 1)) := by
            by_contra hc
            push_neg at hc
            have h9 := sorted_getElem_le hs hmidlt hi hc
            omega
          exact ih low (max (low + 1) (min t (high - 1)) - 1) i h1 (by omega)
            (by omega) hi hx

theorem stage1_window_bounds {l : List Int} (hs : l.Sorted (· < ·)) {x : Int} :
    ∀ steps low high low2 high2, low ≤ high → high < l.length →
    stage1 l x steps low high = .window low2 high2 →
    low ≤ low2 ∧ low2 ≤ high2 ∧ high2 ≤ high ∧
      ∀ i, low ≤ i → i ≤ high → ∀ hi : i < l.length, l[i] = x →
        (low2 ≤ i ∧ i ≤ high2) := by
  intro steps
  induction steps with
  | zero =>
    intro low high low2 high2 hlh hhigh heq
    rw [stage1] at heq
    have h1 : low = low2 ∧ high = high2 := by
      cases heq
      exact ⟨rfl, rfl⟩
    obtain ⟨rfl, rfl⟩ := h1
    exact ⟨le_rfl, hlh, le_rfl, fun i hi1 hi2 _ _ => ⟨hi1, hi2⟩⟩
  | succ st ih =>
    intro low high low2 high2 hlh hhigh heq
    have hlow : low < l.length := by omega
    rw [stage1, if_neg (show ¬ high < low by omega), getE_eq hlow,
      getE_eq hhigh] at heq
    by_cases hax : l[low] = x ∨ l[high] = x
    · simp only [if_pos hax] at heq
      cases heq
    · simp only [if_neg hax] at heq
      by_cases hba : l[high] - l[low] = 0
      · simp only [if_pos hba] at heq
        cases heq
      · simp only [if_neg hba] at heq
        have hlne : low ≠ high := by
          intro hcon
          subst hcon
          omega
        have hlowlt : low < high := by omega
        cases hts : toSizeT ((low : ℚ) +
            ((x - l[low] : ℤ) : ℚ) / ((l[high] - l[low] : ℤ) : ℚ) *
              ((high - low : ℕ) : ℚ)) with
        | none =>
          simp only [hts] at heq
          cases heq
        | some t =>
          simp only [hts] at heq
          cases hcl : clampChecked t (low + 1)
              (if high = 0 then SIZE_T_MOD - 1 else high - 1) with
          | none =>
            simp only [hcl] at heq
            cases heq
          | some mid =>
            simp only [hcl] at heq
            rw [if_neg (show ¬ high = 0 by omega)] at hcl
            obtain ⟨hch, hclo, hchi⟩ := clampChecked_some hcl
            have hmidlt : mid < l.length := by omega
            simp only [getE_eq hmidlt] at heq
            by_cases hmx : l[mid] = x
            · simp only [if_pos hmx] at heq
              cases heq
            · simp only [if_neg hmx] at heq
              by_cases hmlt : l[mid] < x
              · simp only [if_pos hmlt] at heq
                obtain ⟨hg1, hg2, hg3, htr⟩ :=
                  ih (mid + 1) high low2 high2 (by omega) hhigh heq
                refine ⟨by omega, hg2, hg3, ?_⟩
                intro i hi1 hi2 hi hix
                have himid : mid < i := by
                  by_contra hc
                  push_neg at hc
                  have h9 := sorted_getElem_le hs hi hmidlt hc
                  omega
                exact htr i (by omega) hi2 hi hix
              · simp only [if_neg hmlt] at heq
                obtain ⟨hg1, hg2, hg3, htr⟩ :=
                  ih low (mid - 1) low2 high2 (by omega) (by omega) heq
                refine ⟨hg1, hg2, by omega, ?_⟩
                intro i hi1 hi2 hi hix
                have himid : i < mid := by
                  by_contra hc
                  push_neg at hc
                  have h9 := sorted_getElem_le hs hmidlt hi hc
                  omega
                exact htr i hi1 (by omega) hi hix

theorem stage1_zero_zero_fault {l : List Int} {x : Int} (h0 : 0 < l.length)
    (hne : l[0] ≠ x) (steps : ℕ) : stage1 l x (steps + 1) 0 0 = .fault := by
  rw [stage1, if_neg (by omega), getE_eq h0]
  simp only [if_neg (show ¬ (l[0] = x ∨ l[0] = x) from by push_neg; exact ⟨hne, hne⟩),
    if_pos (show l[0] - l[0] = 0 by omega)]

theorem stage1_fault_lt_head {l : List Int} (hs : l.Sorted (· < ·)) {x : Int}
    (hl : l ≠ []) (hx : x < l.headI) (steps high : ℕ) (hhigh : high < l.length) :
    stage1 l x (steps + 2) 0 high = .fault := by
  have h0 : 0 < l.length := List.length_pos.mpr hl
  have hx0 : x < l[0] := by
    rw [headI_eq_getElem hl] at hx
    exact hx
  rcases Nat.eq_zero_or_pos high with rfl | hhpos
  · exact stage1_zero_zero_fault h0 (by omega) (steps + 1)
  · rw [stage1, if_neg (by omega), getE_eq h0, getE_eq hhigh]
    have hax1 : l[0] ≠ x := by omega
    have h0h : l[0] ≤ l[high] := sorted_getElem_le hs h0 hhigh (by omega)
    have hax2 : l[high] ≠ x := by omega
    have hba : ¬ (l[high] - l[0] = 0) := by
      have h9 : l[0] < l[high] := sorted_getElem_lt hs h0 hhigh hhpos
      omega
    simp only [if_neg (show ¬ (l[0] = x ∨ l[high] = x) from by
      push_neg; exact ⟨hax1, hax2⟩), if_neg hba]
    -- the interpolation estimate is negative
    have hnum : ((x - l[0] : ℤ) : ℚ) < 0 := by
      have h9 : (x - l[0] : ℤ) < 0 := by omega
      exact_mod_cast h9
    have hden : (0 : ℚ) < ((l[high] - l[0] : ℤ) : ℚ) := by
      have h9 : (0 : ℤ) < l[high] - l[0] := by
        have := sorted_getElem_lt hs h0 hhigh hhpos
        omega
      exact_mod_cast h9
    have hwid : (0 : ℚ) < ((high - 0 : ℕ) : ℚ) := by
      have h9 : 0 < high - 0 := by omega
      exact_mod_cast h9
    have hposneg : ((0 : ℕ) : ℚ) +
        ((x - l[0] : ℤ) : ℚ) / ((l[high] - l[0] : ℤ) : ℚ) * ((high - 0 : ℕ) : ℚ) < 0 := by
      have h9 := mul_neg_of_neg_of_pos (div_neg_of_neg_of_pos hnum hden) hwid
      simpa using h9
    cases hts : toSizeT (((0 : ℕ) : ℚ) +
        ((x - l[0] : ℤ) : ℚ) / ((l[high] - l[0] : ℤ) : ℚ) * ((high - 0 : ℕ) : ℚ)) with
    | none => simp only [hts]
    | some t =>
      -- the truncation of a value in (-1, 0) is 0
      have htz : t = 0 := by
        rw [toSizeT] at hts
        by_cases hneg : ratTrunc (((0 : ℕ) : ℚ) +
            ((x - l[0] : ℤ) : ℚ) / ((l[high] - l[0] : ℤ) : ℚ) * ((high - 0 : ℕ) : ℚ)) < 0
        · rw [if_pos (Or.inl hneg)] at hts
          cases hts
        · push_neg at hneg
          have hle := ratTrunc_nonpos hposneg
          have ht0 : ratTrunc (((0 : ℕ) : ℚ) +
              ((x - l[0] : ℤ) : ℚ) / ((l[high] - l[0] : ℤ) : ℚ) *
                ((high - 0 : ℕ) : ℚ)) = 0 :=
            le_antisymm hle hneg
          rw [ht0] at hts
          norm_num [SIZE_T_MOD] at hts
          omega
      subst htz
      simp only [hts]
      -- clamp(0, 1, high - 1)
      rcases Nat.lt_or_ge high 2 with hh2 | hh2
      · -- high = 1: empty clamp range, undefined behaviour
        have hh1 : high = 1 := by omega
        subst hh1
        rw [if_neg (show ¬ (1 : ℕ) = 0 from by decide)]
        have hcl : clampChecked 0 (0 + 1) (1 - 1) = none := by
          rw [clampChecked, if_pos (by decide)]
        simp only [hcl]
      · rw [if_neg (show ¬ high = 0 by omega)]
        have hcl : clampChecked 0 (0 + 1) (high - 1) = some 1 := by
          rw [clampChecked, if_neg (by omega)]
          congr 1
          omega
        simp only [hcl]
        have h1lt : 1 < l.length := by omega
        simp only [getE_eq h1lt]
        have h01 : l[0] < l[1] := sorted_getElem_lt hs h0 h1lt (by omega)
        have hm1 : l[1] ≠ x := by omega
        have hm2 : ¬ l[1] < x := by omega
        simp only [if_neg hm1, if_neg hm2]
        exact stage1_zero_zero_fault h0 (by omega) steps

theorem scalarLoop_fault {l : List Int} (hs : l.Sorted (· < ·)) {x : Int}
    (hl : l ≠ []) (hx : x < l.headI) :
    ∀ fuel high, scalarLoop l x fuel 0 high = none := by
  have h0 : 0 < l.length := List.length_pos.mpr hl
  have hx0 : x < l[0] := by rw [headI_eq_getElem hl] at hx; exact hx
  intro fuel
  induction fuel with
  | zero => intro high; rfl
  | succ f ih =>
    intro high
    rw [scalarLoop, if_neg (by omega)]
    cases hg : getE l (0 + (high - 0) / 2) with
    | none => simp only [hg]
    | some m =>
      obtain ⟨hmi, hmv⟩ := getE_some hg
      have hge : l[0] ≤ m := by
        rw [← hmv]
        exact sorted_getElem_le hs h0 hmi (by omega)
      have hne : m ≠ x := by omega
      have hnlt : ¬ m < x := by omega
      simp only [hg, if_neg hne, if_neg hnlt]
      exact ih _

theorem scalarLoop_sound {l : List Int} {x : Int} :
    ∀ fuel low high, scalarLoop l x fuel low high = some true → x ∈ l := by
  intro fuel
  induction fuel with
  | zero => intro low high h; cases h
  | succ f ih =>
    intro low high h
    rw [scalarLoop] at h
    by_cases hlh : high < low
    · rw [if_pos hlh] at h
      cases h
    · rw [if_neg hlh] at h
      cases hg : getE l (low + (high - low) / 2) with
      | none => rw [hg] at h; cases h
      | some m =>
        obtain ⟨hmi, hmv⟩ := getE_some hg
        simp only [hg] at h
        by_cases hmx : m = x
        · rw [← hmx, ← hmv]
          exact List.getElem_mem hmi
        · simp only [if_neg hmx] at h
          by_cases hmlt : m < x
          · simp only [if_pos hmlt] at h
            exact ih _ _ h
          · simp only [if_neg hmlt] at h
            exact ih _ _ h

theorem stage1_sound {l : List Int} {x : Int} :
    ∀ steps low high, stage1 l x steps low high = .found true → x ∈ l := by
  intro steps
  induction steps with
  | zero => intro low high h; cases h
  | succ st ih =>
    intro low high h
    rw [stage1] at h
    by_cases hlh : high < low
    · rw [if_pos hlh] at h
      cases h
    · rw [if_neg hlh] at h
      cases hga : getE l low with
      | none => rw [hga] at h; cases h
      | some a =>
        cases hgb : getE l high with
        | none => rw [hga, hgb] at h; cases h
        | some b =>
          obtain ⟨hai, hav⟩ := getE_some hga
          obtain ⟨hbi, hbv⟩ := getE_some hgb
          simp only [hga, hgb] at h
          by_cases hax : a = x ∨ b = x
          · rcases hax with rfl | rfl
            · rw [← hav]; exact List.getElem_mem hai
            · rw [← hbv]; exact List.getElem_mem hbi
          · simp only [if_neg hax] at h
            by_cases hba : b - a = 0
            · simp only [if_pos hba] at h; cases h
            · simp only [if_neg hba] at h
              cases hts : toSizeT ((low : ℚ) +
                  ((x - a : ℤ) : ℚ) / ((b - a : ℤ) : ℚ) *
                    ((high - low : ℕ) : ℚ)) with
              | none => simp only [hts] at h; cases h
              | some t =>
                simp only [hts] at h
                cases hcl : clampChecked t (low + 1)
                    (if high = 0 then SIZE_T_MOD - 1 else high - 1) with
                | none => simp only [hcl] at h; cases h
                | some mid =>
                  simp only [hcl] at h
                  cases hgm : getE l mid with
                  | none => simp only [hgm] at h; cases h
                  | some m =>
                    obtain ⟨hmi, hmv⟩ := getE_some hgm
                    simp only [hgm] at h
                    by_cases hmx : m = x
                    · rw [← hmx, ← hmv]; exact List.getElem_mem hmi
                    · simp only [if_neg hmx] at h
                      by_cases hmlt : m < x
                      · simp only [if_pos hmlt] at h
                        exact ih _ _ h
                      · simp only [if_neg hmlt] at h
                        exact ih _ _ h

theorem simdLoop_sound {l : List Int} {x : Int} :
    ∀ fuel low high low2 high2,
    simdLoop l x fuel low high = some (low2, high2) →
    ∀ fuel2, scalarLoop l x fuel2 low2 high2 = some true → x ∈ l := by
  intro fuel
  induction fuel with
  | zero => intro low high low2 high2 h; cases h
  | succ f ih =>
    intro low high low2 high2 h
    rw [simdLoop] at h
    by_cases hw : 32 < high - low
    · rw [if_pos hw] at h
      cases hg : lanesLt l x (low + (high - low) / 2) with
      | none => rw [hg] at h; cases h
      | some bv =>
        rw [hg] at h
        cases bv with
        | true => exact ih _ _ _ _ h
        | false => exact ih _ _ _ _ h
    · rw [if_neg hw] at h
      have h2 := Option.some.inj h
      intro fuel2 hsc
      have hl2 : low2 = low := by
        have := congrArg Prod.fst h2; simpa using this.symm
      have hh2 : high2 = high := by
        have := congrArg Prod.snd h2; simpa using this.symm
      exact scalarLoop_sound _ _ _ hsc

theorem searchWith_sound {b : Block} {x : Int} {simd : Bool}
    (h : Block.searchWith simd b x = some true) : x ∈ b.data := by
  rw [Block.searchWith] at h
  by_cases hemp : b.data.isEmpty
  · rw [if_pos hemp] at h
    cases h
  · rw [if_neg hemp] at h
    cases hst : stage1 b.data x 3 0 (b.data.length - 1) with
    | found r =>
      simp only [hst] at h
      cases r with
      | true => exact stage1_sound _ _ _ hst
      | false => cases h
    | fault =>
      simp only [hst] at h
      cases h
    | window low high =>
      simp only [hst] at h
      cases simd with
      | false => exact scalarLoop_sound _ _ _ h
      | true =>
        rw [if_pos rfl] at h
        cases hsl : simdLoop b.data x (b.data.length + 8) low high with
        | none => rw [hsl] at h; cases h
        | some p =>
          rw [hsl] at h
          obtain ⟨l2, h2⟩ := p
          exact simdLoop_sound _ _ _ _ _ hsl _ h

theorem search_present {b : Block} (hs : b.data.Sorted (· < ·))
    (hmod : b.data.length ≤ SIZE_T_MOD) {x : Int} (hx : x ∈ b.data)
    (simd : Bool) : Block.searchWith simd b x = some true := by
  have hne : b.data ≠ [] := by rintro h; rw [h] at hx; cases hx
  have hlp : 0 < b.data.length := List.length_pos.mpr hne
  obtain ⟨i, hi, hix⟩ := List.getElem_of_mem hx
  rw [Block.searchWith, if_neg (by simpa using hne)]
  rcases stage1_present hs hmod 3 0 (b.data.length - 1) i (by omega) (by omega)
      (by omega) hi hix with hfound |
      ⟨low2, high2, hw, hlh, hhl, j, hj1, hj2, hj, hjx⟩
  · simp only [hfound]
  · simp only [hw]
    cases simd with
    | false =>
      exact scalarLoop_found hs _ low2 high2 j hj1 hj2 hhl hj hjx (by omega)
    | true =>
      rw [if_pos rfl]
      obtain ⟨l3, h3, heq, hg1, hg2, hg3, htr⟩ :=
        simdLoop_window hs (b.data.length + 8) low2 high2 hlh hhl (by omega)
      rw [heq]
      obtain ⟨ht1, ht2⟩ := htr j hj1 hj2 hj hjx
      exact scalarLoop_found hs _ l3 h3 j ht1 ht2 (by omega) hj hjx (by omega)

/-- The AVX2 build of `Block::search` and the pure-scalar build agree on
every block with sorted data. -/
theorem searchWith_simd_eq {b : Block} (hs : b.data.Sorted (· < ·)) (x : Int) :
    Block.searchWith true b x = Block.searchWith false b x := by
  rw [Block.searchWith, Block.searchWith]
  by_cases hemp : b.data.isEmpty
  · rw [if_pos hemp, if_pos hemp]
  · rw [if_neg hemp, if_neg hemp]
    have hne : b.data ≠ [] := by simpa using hemp
    have hlp : 0 < b.data.length := List.length_pos.mpr hne
    by_cases hhead : x < b.data.headI
    · have hf : stage1 b.data x 3 0 (b.data.length - 1) = .fault :=
        stage1_fault_lt_head hs hne hhead 1 (b.data.length - 1) (by omega)
      simp only [hf]
    · push_neg at hhead
      cases hst : stage1 b.data x 3 0 (b.data.length - 1) with
      | found r => simp only [hst]
      | fault => simp only [hst]
      | window low2 high2 =>
        simp only [hst]
        obtain ⟨hg0, hg1, hg2, htr⟩ :=
          stage1_window_bounds hs 3 0 (b.data.length - 1) low2 high2 (by omega)
            (by omega) hst
        have hh2len : high2 < b.data.length := by omega
        obtain ⟨l3, h3, heq, hs1, hs2, hs3, htr2⟩ :=
          @simdLoop_window b.data hs x (b.data.length + 8) low2 high2 hg1 hh2len
            (by omega)
        rw [if_pos trivial, if_neg Bool.false_ne_true, heq]
        show scalarLoop b.data x (b.data.length + 8) l3 h3 =
          scalarLoop b.data x (b.data.length + 8) low2 high2
        by_cases hwin : ∃ j, low2 ≤ j ∧ j ≤ high2 ∧
            ∃ hj : j < b.data.length, b.data[j] = x
        · obtain ⟨j, hj1, hj2, hj, hjx⟩ := hwin
          obtain ⟨ht1, ht2⟩ := htr2 j hj1 hj2 hj hjx
          rw [scalarLoop_found hs _ l3 h3 j ht1 ht2 (by omega) hj hjx (by omega),
            scalarLoop_found hs _ low2 high2 j hj1 hj2 hh2len hj hjx (by omega)]
        · push_neg at hwin
          have habs : ∀ i, low2 ≤ i → i ≤ high2 →
              ∀ hi : i < b.data.length, b.data[i] ≠ x := fun i h1 h2 hi =>
            hwin i h1 h2 hi
          have hsafe : (1 ≤ l3 ∨ (b.data ≠ [] ∧ b.data.headI ≤ x)) :=
            Or.inr ⟨hne, hhead⟩
          have hsafe2 : (1 ≤ low2 ∨ (b.data ≠ [] ∧ b.data.headI ≤ x)) :=
            Or.inr ⟨hne, hhead⟩
          rw [scalarLoop_notfound hs _ l3 h3 (by omega) (by omega) hsafe
              (fun i h1 h2 hi => habs i (by omega) (by omega) hi) (by omega),
            scalarLoop_notfound hs _ low2 high2 (by omega) hh2len hsafe2 habs
              (by omega)]

/-! ## Block location: `findBlockContaining` correctness -/

/-- Loop invariant of the block binary search: once the containing block's
index `k` is inside the live window (or already recorded), the search
returns exactly `k`. -/
theorem findAux_locates {bs : List Block} (hwf : ∀ b ∈ bs, b.WF)
    (hch : ChainOk bs) {x : Int} {k : ℕ} (hk : k < bs.length)
    (hkx : x ∈ (bs.getD k default).data) :
    ∀ (fuel : ℕ) (left right result : ℤ), 0 ≤ left → left ≤ k →
      right < bs.length →
      ((result = k ∧ right < k) ∨ (result = -1 ∧ k ≤ right)) →
      right - left + 1 < (fuel : ℤ) →
      findAux bs x fuel left right result = k := by
  have hkd : bs.getD k default = bs[k] := List.getD_eq_getElem bs default hk
  rw [hkd] at hkx
  have hkwf : bs[k].WF := hwf _ (bs.getElem_mem hk)
  have hminx : bs[k].minVal ≤ x := hkwf.min_le hkx
  have hxmax : x ≤ bs[k].maxVal := hkwf.le_max hkx
  intro fuel
  induction fuel with
  | zero =>
    intro left right result h1 h2 h3 h4 h5
    show result = (k : ℤ)
    rcases h4 with ⟨hr, _⟩ | ⟨_, hkr⟩
    · exact hr
    · omega
  | succ fuel ih =>
    intro left right result h1 h2 h3 h4 h5
    rw [findAux]
    by_cases hlr : right < left
    · rw [if_pos hlr]
      rcases h4 with ⟨hr, _⟩ | ⟨_, hkr⟩
      · exact hr
      · omega
    · rw [if_neg hlr]
      push_neg at hlr
      have hmid1 : left ≤ left + (right - left) / 2 := by omega
      have hmid2 : left + (right - left) / 2 ≤ right := by omega
      have hmidlen : (left + (right - left) / 2).toNat < bs.length := by omega
      have hbd : bs.getD (left + (right - left) / 2).toNat default =
          bs[(left + (right - left) / 2).toNat] :=
        List.getD_eq_getElem bs default hmidlen
      rcases lt_trichotomy ((left + (right - left) / 2).toNat) k with hc | hc | hc
      · have hlt : (bs.getD (left + (right - left) / 2).toNat default).maxVal < x := by
          rw [hbd]
          have := chainOk_lt_of_lt hwf hch hmidlen hk hc
          omega
        rw [if_pos hlt]
        refine ih (left + (right - left) / 2 + 1) right result (by omega)
          (by omega) h3 ?_ (by omega)
        rcases h4 with ⟨hr, hrk⟩ | ⟨hr, hkr⟩
        · omega
        · exact Or.inr ⟨hr, hkr⟩
      · have hbk : bs.getD (left + (right - left) / 2).toNat default = bs[k] := by
          rw [hc]
          exact List.getD_eq_getElem bs default hk
        have hnlt : ¬ (bs.getD (left + (right - left) / 2).toNat default).maxVal < x := by
          rw [hbk]; omega
        have hcont : (bs.getD (left + (right - left) / 2).toNat default).containsB x
            = true := by
          rw [hbk]
          have hne : ¬ bs[k].data.isEmpty := by
            simp [List.isEmpty_iff, hkwf.ne]
          simp [Block.containsB, hne, hminx, hxmax]
        rw [if_neg hnlt, if_pos hcont]
        have hmidk : left + (right - left) / 2 = (k : ℤ) := by omega
        rw [hmidk]
        refine ih left ((k : ℤ) - 1) (k : ℤ) h1 h2 (by omega) ?_ (by omega)
        exact Or.inl ⟨rfl, by omega⟩
      · have hmink : bs[k].maxVal <
            (bs.getD (left + (right - left) / 2).toNat default).minVal := by
          rw [hbd]
          exact chainOk_lt_of_lt hwf hch hk hmidlen hc
        have hm2 : (bs.getD (left + (right - left) / 2).toNat default).minVal ≤
            (bs.getD (left + (right - left) / 2).toNat default).maxVal := by
          rw [hbd]
          exact (hwf _ (bs.getElem_mem hmidlen)).min_le_max
        have hnlt : ¬ (bs.getD (left + (right - left) / 2).toNat default).maxVal
            < x := by omega
        have hcont : (bs.getD (left + (right - left) / 2).toNat default).containsB x
            = false := by
          have hno : ¬ (bs.getD (left + (right - left) / 2).toNat default).minVal
              ≤ x := by omega
          rw [Block.containsB, decide_eq_false hno]
          simp
        rw [if_neg hnlt, hcont, if_neg Bool.false_ne_true]
        refine ih left (left + (right - left) / 2 - 1) result h1 h2 (by omega)
          ?_ (by omega)
        rcases h4 with ⟨hr, hrk⟩ | ⟨hr, hkr⟩
        · omega
        · exact Or.inr ⟨hr, by omega⟩

/-- Without any presence assumption, the index returned by the block
binary search is `-1` or a valid block index. -/
theorem findAux_range (bs : List Block) (x : Int) :
    ∀ (fuel : ℕ) (left right result : ℤ), 0 ≤ left → right < bs.length →
      (result = -1 ∨ (0 ≤ result ∧ result < bs.length)) →
      (findAux bs x fuel left right result = -1 ∨
        (0 ≤ findAux bs x fuel left right result ∧
          findAux bs x fuel left right result < bs.length)) := by
  intro fuel
  induction fuel with
  | zero => intro left right result h1 h2 h3; exact h3
  | succ fuel ih =>
    intro left right result h1 h2 h3
    rw [findAux]
    by_cases hlr : right < left
    · rw [if_pos hlr]; exact h3
    · rw [if_neg hlr]
      push_neg at hlr
      by_cases hlt : (bs.getD (left + (right - left) / 2).toNat default).maxVal < x
      · rw [if_pos hlt]
        exact ih _ right result (by omega) h2 h3
      · rw [if_neg hlt]
        by_cases hcont :
            (bs.getD (left + (right - left) / 2).toNat default).containsB x
        · rw [if_pos hcont]
          exact ih left _ _ (by omega) (by omega) (Or.inr ⟨by omega, by omega⟩)
        · rw [if_neg hcont]
          exact ih left _ result (by omega) (by omega) h3

/-- On an invariant-respecting engine, `findBlockContaining` returns the
index of any block that stores `x`. -/
theorem findBlockContaining_eq {e : UltimateHybridSearch} (he : e.Inv)
    {x : Int} {k : ℕ} (hk : k < e.blocks.length)
    (hkx : x ∈ (e.blocks.getD k default).data) :
    findBlockContaining e x = k := by
  have hne : ¬ e.blocks.isEmpty := by
    simp only [List.isEmpty_iff]
    intro h0
    rw [h0] at hk
    simp at hk
  rw [findBlockContaining, if_neg hne]
  exact findAux_locates he.wf he.chain hk hkx (e.blocks.length + 1) 0
    ((e.blocks.length : ℤ) - 1) (-1) (by omega) (by omega) (by omega)
    (Or.inr ⟨rfl, by omega⟩) (by omega)

/-- `query` completeness: on an invariant-respecting engine every stored
element is reported present (no undefined behaviour occurs on the way). -/
theorem query_present {e : UltimateHybridSearch} (he : e.Inv) {x : Int}
    (hx : x ∈ elems e) : query e x = some true := by
  obtain ⟨b, hb, hxb⟩ := mem_elems.mp hx
  obtain ⟨k, hk, hbk⟩ := List.getElem_of_mem hb
  have hkd : e.blocks.getD k default = b := by
    rw [List.getD_eq_getElem e.blocks default hk, hbk]
  have hloc : findBlockContaining e x = k :=
    findBlockContaining_eq he hk (by rw [hkd]; exact hxb)
  rw [query, hloc, if_neg (by omega : ¬ ((k : ℕ) : ℤ) < 0)]
  have htn : (((k : ℕ) : ℤ)).toNat = k := Int.toNat_natCast k
  rw [htn, hkd]
  have hwfb : b.WF := he.wf b hb
  exact search_present hwfb.sorted
    (le_trans hwfb.small (by decide : MAX_BLOCK_SIZE ≤ SIZE_T_MOD)) hxb false

/-- `query` soundness: a `true` answer only arises for stored elements. -/
theorem query_sound {e : UltimateHybridSearch} {x : Int}
    (h : query e x = some true) : x ∈ elems e := by
  rw [query] at h
  by_cases hneg : e.findBlockContaining x < 0
  · rw [if_pos hneg] at h
    cases h
  · rw [if_neg hneg] at h
    push_neg at hneg
    have hrange : findBlockContaining e x = -1 ∨
        (0 ≤ findBlockContaining e x ∧
          findBlockContaining e x < e.blocks.length) := by
      rw [findBlockContaining]
      by_cases hemp : e.blocks.isEmpty
      · rw [if_pos hemp]
        exact Or.inl rfl
      · rw [if_neg hemp]
        exact findAux_range e.blocks x (e.blocks.length + 1) 0
          ((e.blocks.length : ℤ) - 1) (-1) (by omega) (by omega) (Or.inl rfl)
    have hlt : (e.findBlockContaining x).toNat < e.blocks.length := by
      rcases hrange with h1 | ⟨h1, h2⟩
      · omega
      · omega
    rw [List.getD_eq_getElem e.blocks default hlt] at h
    have hxd : x ∈ (e.blocks[(e.findBlockContaining x).toNat]).data :=
      searchWith_sound h
    exact mem_elems.mpr ⟨_, e.blocks.getElem_mem hlt, hxd⟩

/-! ## Insert of a present element is the identity -/

/-- On an invariant-respecting engine, `insert` of an element already
stored leaves the whole engine state unchanged: `Block::insert` sees the
element at its `lower_bound` and returns, so no data, no cached bound and
no block count moves, and no split fires. -/
theorem insert_of_mem {e : UltimateHybridSearch} (he : e.Inv) {x : Int}
    (hx : x ∈ elems e) : e.insert x = e := by
  obtain ⟨hwf, hch⟩ := he
  obtain ⟨b, hb, hxb⟩ := mem_elems.mp hx
  obtain ⟨k, hk, hbk⟩ := List.getElem_of_mem hb
  have hbne : e.blocks ≠ [] := by
    intro h0
    rw [h0] at hk
    simp at hk
  have hemp : ¬ e.blocks.isEmpty := by simpa [List.isEmpty_iff] using hbne
  have hkwf : e.blocks[k].WF := hwf _ (e.blocks.getElem_mem hk)
  have hxk : x ∈ e.blocks[k].data := by rw [hbk]; exact hxb
  have hub : (e.blocks.takeWhile (fun c => decide (c.minVal ≤ x))).length = k + 1 := by
    refine takeWhile_length_eq _ _ (k + 1) (by omega) ?_ ?_
    · intro i hi2 hi
      simp only [decide_eq_true_eq]
      rcases Nat.lt_or_ge i k with hik | hik
      · have h1 := chainOk_lt_of_lt hwf hch hi2 hk hik
        have h2 : e.blocks[i].minVal ≤ e.blocks[i].maxVal :=
          (hwf _ (e.blocks.getElem_mem hi2)).min_le_max
        have h3 : e.blocks[k].minVal ≤ x := hkwf.min_le hxk
        omega
      · have hik2 : i = k := by omega
        subst hik2
        exact hkwf.min_le hxk
    · intro hlt
      have h1 := chainOk_consec hch hlt
      have h2 : x ≤ e.blocks[k].maxVal := hkwf.le_max hxk
      simp only [decide_eq_false_iff_not]
      omega
  rw [UltimateHybridSearch.insert, if_neg hemp, hub]
  show splitBlockIfNeeded
    ⟨e.blocks.set k ((e.blocks.getD k default).insertB x)⟩ k = e
  have hgetD : e.blocks.getD k default = e.blocks[k] :=
    List.getD_eq_getElem e.blocks default hk
  rw [hgetD, insertB_of_mem hkwf.sorted hxk, set_getElem_self hk]
  refine split_eq_small k ?_
  intro ⟨h1, h2⟩
  rw [hgetD] at h2
  exact absurd hkwf.small (by omega)

/-! ## Range query: extraction equals filtering -/

/-- On a strictly sorted list, `upper_bound`'s `takeWhile` keeps exactly
the elements at most `high`. -/
theorem takeWhile_le_filter {high : Int} : ∀ {l : List Int}, l.Sorted (· < ·) →
    l.takeWhile (fun y => decide (y ≤ high)) =
      l.filter (fun y => decide (y ≤ high)) := by
  intro l
  induction l with
  | nil => intro _; rfl
  | cons a t ih =>
    intro hs
    rw [List.sorted_cons] at hs
    obtain ⟨ha, ht⟩ := hs
    by_cases hah : a ≤ high
    · rw [List.takeWhile_cons_of_pos (by simpa using hah),
        List.filter_cons_of_pos (by simpa using hah), ih ht]
    · rw [List.takeWhile_cons_of_neg (by simpa using hah),
        List.filter_cons_of_neg (by simpa using hah)]
      symm
      rw [List.filter_eq_nil_iff]
      intro y hy
      have hay := ha y hy
      simp only [decide_eq_true_eq]
      omega

/-- On a strictly sorted list, `lower_bound` for `low` followed by
`upper_bound` for `high` extracts exactly the elements in `[low, high]`. -/
theorem blockRange_filter {low high : Int} : ∀ {l : List Int},
    l.Sorted (· < ·) →
    (l.dropWhile (fun y => decide (y < low))).takeWhile
        (fun y => decide (y ≤ high)) =
      l.filter (fun y => decide (low ≤ y) && decide (y ≤ high)) := by
  intro l
  induction l with
  | nil => intro _; rfl
  | cons a t ih =>
    intro hs
    have hs2 := hs
    rw [List.sorted_cons] at hs2
    obtain ⟨ha, ht⟩ := hs2
    by_cases hal : a < low
    · rw [List.dropWhile_cons_of_pos (by simpa using hal),
        List.filter_cons_of_neg (by simp; omega), ih ht]
    · rw [List.dropWhile_cons_of_neg (by simpa using hal)]
      push_neg at hal
      by_cases hah : a ≤ high
      · rw [List.takeWhile_cons_of_pos (by simpa using hah),
          List.filter_cons_of_pos (by simp [hal, hah])]
        congr 1
        rw [takeWhile_le_filter ht]
        apply List.filter_congr
        intro y hy
        have hay := ha y hy
        have hly : decide (low ≤ y) = true := by
          simp only [decide_eq_true_eq]
          omega
        rw [hly, Bool.true_and]
      · rw [List.takeWhile_cons_of_neg (by simpa using hah)]
        symm
        rw [List.filter_eq_nil_iff]
        intro y hy
        rcases List.mem_cons.mp hy with rfl | hyt
        · simp only [Bool.and_eq_true, decide_eq_true_eq, not_and]
          omega
        · have hay := ha y hyt
          simp only [Bool.and_eq_true, decide_eq_true_eq, not_and]
          omega

/-- Under the chain invariant, the first block's `minVal` bounds every
element stored from that block onwards. -/
theorem chain_head_min_le {b : Block} {rest : List Block}
    (hwf : ∀ c ∈ b :: rest, c.WF) (hch : ChainOk (b :: rest)) {c : Block}
    (hc : c ∈ b :: rest) {y : Int} (hy : y ∈ c.data) : b.minVal ≤ y := by
  obtain ⟨j, hj, hcj⟩ := List.getElem_of_mem hc
  have hcwf : c.WF := hwf c hc
  cases j with
  | zero =>
    have hb : b = c := hcj
    rw [hb]
    exact hcwf.min_le hy
  | succ m =>
    have h1 : (b :: rest)[0].maxVal < (b :: rest)[m + 1].minVal :=
      chainOk_lt_of_lt hwf hch (by simp) hj (Nat.succ_pos m)
    rw [hcj] at h1
    have h2 : b.minVal ≤ b.maxVal := (hwf b (List.mem_cons_self b rest)).min_le_max
    have h3 : c.minVal ≤ y := hcwf.min_le hy
    simp only [List.getElem_cons_zero] at h1
    omega

/-- The whole `rangeQuery` scan over an invariant-respecting block list is
a filter of the stored elements. -/
theorem collectRange_filter (low high : Int) : ∀ (bs : List Block),
    (∀ c ∈ bs, c.WF) → ChainOk bs →
    collectRange low high (bs.dropWhile (fun c => decide (c.maxVal < low))) =
      ((bs.map Block.data).flatten).filter
        (fun y => decide (low ≤ y) && decide (y ≤ high)) := by
  intro bs
  induction bs with
  | nil => intro _ _; rfl
  | cons b rest ih =>
    intro hwf hch
    have hbwf : b.WF := hwf b (List.mem_cons_self b rest)
    have hwfr : ∀ c ∈ rest, c.WF := fun c hc => hwf c (List.mem_cons_of_mem _ hc)
    have hchr : ChainOk rest := List.Chain'.tail hch
    by_cases hbl : b.maxVal < low
    · rw [List.dropWhile_cons_of_pos (by simpa using hbl), List.map_cons,
        List.flatten_cons, List.filter_append]
      have hnil : b.data.filter (fun y => decide (low ≤ y) && decide (y ≤ high))
          = [] := by
        rw [List.filter_eq_nil_iff]
        intro y hy
        have hym := hbwf.le_max hy
        simp only [Bool.and_eq_true, decide_eq_true_eq, not_and]
        omega
      rw [hnil, List.nil_append]
      exact ih hwfr hchr
    · rw [List.dropWhile_cons_of_neg (by simpa using hbl)]
      push_neg at hbl
      rw [collectRange]
      by_cases hbh : b.minVal ≤ high
      · rw [if_pos hbh, List.map_cons, List.flatten_cons, List.filter_append]
        congr 1
        · rw [blockRange]
          exact blockRange_filter hbwf.sorted
        · rw [← ih hwfr hchr]
          cases rest with
          | nil => rfl
          | cons c rest2 =>
            have hch2 : List.Chain' (fun a b => a.maxVal < b.minVal)
                (b :: c :: rest2) := hch
            have hc1 : b.maxVal < c.minVal := (List.chain'_cons.mp hch2).1
            have hc2 : c.minVal ≤ c.maxVal :=
              (hwfr c (List.mem_cons_self c rest2)).min_le_max
            rw [List.dropWhile_cons_of_neg (by simp only [decide_eq_true_eq]; omega)]
      · rw [if_neg hbh]
        push_neg at hbh
        symm
        rw [List.filter_eq_nil_iff]
        intro y hy
        rw [List.mem_flatten] at hy
        obtain ⟨d, hd, hyd⟩ := hy
        rw [List.mem_map] at hd
        obtain ⟨c, hc, rfl⟩ := hd
        have hby : b.minVal ≤ y := chain_head_min_le hwf hch hc hyd
        simp only [Bool.and_eq_true, decide_eq_true_eq, not_and]
        omega

/-- `rangeQuery` on an invariant-respecting engine filters the stored
elements to `[low, high]`. -/
theorem rangeQuery_filter {e : UltimateHybridSearch} (he : e.Inv)
    (low high : Int) :
    rangeQuery e low high =
      (elems e).filter (fun y => decide (low ≤ y) && decide (y ≤ high)) := by
  rw [rangeQuery, elems]
  exact collectRange_filter low high e.blocks he.wf he.chain

/-! ## Build on an already sorted input (claim C8 machinery) -/

/-- Two strictly ascending lists with the same members are equal. -/
theorem sorted_eq_of_mem_iff {l1 l2 : List Int} (h1 : l1.Sorted (· < ·))
    (h2 : l2.Sorted (· < ·)) (h : ∀ a, a ∈ l1 ↔ a ∈ l2) : l1 = l2 :=
  List.eq_of_perm_of_sorted
    ((List.perm_ext_iff_of_nodup h1.nodup h2.nodup).mpr h) h1 h2

theorem dedupFrom_sorted_lt : ∀ {l : List Int} {prev : Int},
    l.Sorted (· < ·) → (∀ y ∈ l, prev < y) → dedupFrom prev l = l := by
  intro l
  induction l with
  | nil => intro prev _ _; rfl
  | cons a t ih =>
    intro prev hs hp
    rw [List.sorted_cons] at hs
    have hpa : prev < a := hp a (List.mem_cons_self a t)
    rw [dedupFrom, if_neg (by omega : ¬ a = prev), ih hs.2 hs.1]

/-- `std::unique` leaves a strictly ascending buffer unchanged. -/
theorem dedupAdj_sorted_lt {l : List Int} (hs : l.Sorted (· < ·)) :
    dedupAdj l = l := by
  cases l with
  | nil => rfl
  | cons a t =>
    rw [List.sorted_cons] at hs
    rw [dedupAdj, dedupFrom_sorted_lt hs.2 hs.1]

/-- Sort + dedup is the identity on a strictly ascending buffer. -/
theorem canonicalize_of_sorted {l : List Int} (hs : l.Sorted (· < ·)) :
    canonicalize l = l := by
  rw [canonicalize, sortInts, List.Sorted.insertionSort_eq hs.le_of_lt]
  exact dedupAdj_sorted_lt hs

theorem range_cast_sorted (n : ℕ) :
    ((List.range n).map Int.ofNat).Sorted (· < ·) := by
  rw [List.Sorted, List.pairwise_map]
  exact (List.pairwise_lt_range n).imp (fun h => Int.ofNat_lt.mpr h)

theorem range'_cast_sorted (s n : ℕ) :
    ((List.range' s n).map Int.ofNat).Sorted (· < ·) := by
  rw [List.Sorted, List.pairwise_map]
  exact (List.pairwise_lt_range' s n 1 (by omega)).imp (fun h => Int.ofNat_lt.mpr h)

/-- Chunk sizes of a 20000-element buffer: four full blocks and a 3616
remainder. -/
theorem chunkList_lengths {l : List Int} (hlen : l.length = 20000) :
    (chunkList l).map List.length = [4096, 4096, 4096, 4096, 3616] := by
  have ht : TARGET_BLOCK_SIZE = 4096 := rfl
  have h1 : l ≠ [] := by rintro rfl; simp at hlen
  have hd1 : (l.drop TARGET_BLOCK_SIZE).length = 15904 := by
    rw [List.length_drop, hlen, ht]
  have h2 : l.drop TARGET_BLOCK_SIZE ≠ [] := by
    intro h; rw [h] at hd1; simp at hd1
  have hd2 : ((l.drop TARGET_BLOCK_SIZE).drop TARGET_BLOCK_SIZE).length
      = 11808 := by
    rw [List.length_drop, hd1, ht]
  have h3 : (l.drop TARGET_BLOCK_SIZE).drop TARGET_BLOCK_SIZE ≠ [] := by
    intro h; rw [h] at hd2; simp at hd2
  have hd3 : (((l.drop TARGET_BLOCK_SIZE).drop TARGET_BLOCK_SIZE).drop
      TARGET_BLOCK_SIZE).length = 7712 := by
    rw [List.length_drop, hd2, ht]
  have h4 : ((l.drop TARGET_BLOCK_SIZE).drop TARGET_BLOCK_SIZE).drop
      TARGET_BLOCK_SIZE ≠ [] := by
    intro h; rw [h] at hd3; simp at hd3
  have hd4 : ((((l.drop TARGET_BLOCK_SIZE).drop TARGET_BLOCK_SIZE).drop
      TARGET_BLOCK_SIZE).drop TARGET_BLOCK_SIZE).length = 3616 := by
    rw [List.length_drop, hd3, ht]
  have h5 : (((l.drop TARGET_BLOCK_SIZE).drop TARGET_BLOCK_SIZE).drop
      TARGET_BLOCK_SIZE).drop TARGET_BLOCK_SIZE ≠ [] := by
    intro h; rw [h] at hd4; simp at hd4
  have hd5 : (((((l.drop TARGET_BLOCK_SIZE).drop TARGET_BLOCK_SIZE).drop
      TARGET_BLOCK_SIZE).drop TARGET_BLOCK_SIZE).drop
      TARGET_BLOCK_SIZE).length = 0 := by
    rw [List.length_drop, hd4, ht]
  have h6 : ((((l.drop TARGET_BLOCK_SIZE).drop TARGET_BLOCK_SIZE).drop
      TARGET_BLOCK_SIZE).drop TARGET_BLOCK_SIZE).drop TARGET_BLOCK_SIZE = [] :=
    List.eq_nil_of_length_eq_zero hd5
  rw [chunkList_eq_cons h1, chunkList_eq_cons h2, chunkList_eq_cons h3,
    chunkList_eq_cons h4, chunkList_eq_cons h5, h6, chunkList_nil]
  simp only [List.map_cons, List.map_nil, List.length_take, hlen, hd1, hd2,
    hd3, hd4, ht]
  norm_num
  omega

/-- Filtering the 20000-element build input to the window `[4090, 4100]`
leaves the eleven integers `4090..4100`. -/
theorem filter_range_window :
    ((List.range 20000).map Int.ofNat).filter
        (fun y => decide ((4090 : Int) ≤ y) && decide (y ≤ (4100 : Int))) =
      (List.range' 4090 11).map Int.ofNat := by
  refine sorted_eq_of_mem_iff (List.Sorted.filter _ (range_cast_sorted 20000))
    (range'_cast_sorted 4090 11) ?_
  intro a
  simp only [List.mem_filter, List.mem_map, List.mem_range, List.mem_range'_1,
    Bool.and_eq_true, decide_eq_true_eq, Int.ofNat_eq_natCast]
  constructor
  · rintro ⟨⟨m, hm, rfl⟩, h1, h2⟩
    exact ⟨m, ⟨by omega, by omega⟩, rfl⟩
  · rintro ⟨m, ⟨hm1, hm2⟩, rfl⟩
    exact ⟨⟨m, by omega, rfl⟩, by omega, by omega⟩

/-- The block sizes `build` produces on the 20000-element ascending
input. -/
theorem build_block_lengths :
    (build ((List.range 20000).map Int.ofNat)).blocks.map
        (fun b => b.data.length) = [4096, 4096, 4096, 4096, 3616] := by
  rw [build, canonicalize_of_sorted (range_cast_sorted 20000), List.map_map]
  exact chunkList_lengths (by simp)

/-! ## The claims -/

/-- C1: the spec claims that after `build(S)`, `query(x)` returns true iff
`x` is a distinct value of `S`, and in particular returns false for values
never in `S`.  REFUTED: for `S = [1, 3]` and `x = 2` (a value not in `S`),
the interpolation stage computes `pos = 0.5`, truncates it to `0`, and
calls `std::clamp(0, 1, 0)` whose precondition `lo ≤ hi` is violated —
undefined behaviour (modelled `none`) instead of the claimed `false`. -/
theorem claim_C1 :
    ([(1 : Int), 3].count 2 = 0) ∧ query (build [1, 3]) 2 = none := by decide

/-- C2: after `build` followed by any sequence of `insert`s (splits
included), consecutive blocks satisfy `blocks[i].maxVal <
blocks[i+1].minVal`: the block ranges stay ascending and non-overlapping.
CONFIRMED. -/
theorem claim_C2 (l xs : List Int) :
    ChainOk (applyInserts (build l) xs).blocks :=
  (applyInserts_main xs (build l) (build_inv l)).1.chain

/-- C3: the spec's concrete scenario: `build [5,3,3,9,1]` yields one block
`[1,3,5,9]`, `query 3 = true`, `query 4 = false`, `rangeQuery 2 9 =
[3,5,9]`.  REFUTED in one part: the block content, `query 3` and the range
query agree, but `query 4` runs into `std::clamp(1, 3, 2)` with `lo > hi`
in the second interpolation step — undefined behaviour (modelled `none`),
not the claimed `false`. -/
theorem claim_C3 :
    (build [5, 3, 3, 9, 1]).blocks.map Block.data = [[1, 3, 5, 9]] ∧
    query (build [5, 3, 3, 9, 1]) 3 = some true ∧
    query (build [5, 3, 3, 9, 1]) 4 = none ∧
    rangeQuery (build [5, 3, 3, 9, 1]) 2 9 = [3, 5, 9] := by decide

/-- C4: the spec claims `Block::search` is free of division by zero,
index underflow and out-of-range reads on every non-empty block, in
particular on a single-element block.  REFUTED: on the one-element block
`[5]` with `x = 4`, the first interpolation window is `low = high = 0`,
the boundary checks compare only against `5`, and the divisor
`data[high] - data[low]` is `0`: the division and the subsequent cast and
clamp are undefined (modelled `none`). -/
theorem claim_C4 :
    (⟨5, 5, [5]⟩ : Block).data.length = 1 ∧
    Block.search ⟨5, 5, [5]⟩ 4 = none := by decide

/-- C5: the spec claims that starting from any built engine, `insert x`
followed by `query x` returns true (and earlier positives persist).
REFUTED at the `int` width: after `build [INT_MIN, INT_MAX]` and
`insert 0` — all values in `int` range — `query 0` reaches the stage-1
subtractions `x - data[low] = 2^31` and `data[high] - data[low] = 2^32 - 1`
(serve.hpp line 39), both of which overflow `int`: undefined behaviour,
not the claimed `true`.  The width-faithful model `queryInt` faults
(`none`); the second conjunct shows the idealized unbounded-integer model
would have answered `true`, isolating the divergence to exactly the
signed overflow. -/
theorem claim_C5 :
    queryInt ((build [-2147483648, 2147483647]).insert 0) 0 = none ∧
    query ((build [-2147483648, 2147483647]).insert 0) 0 = some true := by
  decide

/-- C6: on a built engine, `rangeQuery low high` returns exactly the
distinct elements of the input that lie in `[low, high]`, in ascending
order (`canonicalize` is the sorted deduplicated input, so its filter is
that list).  CONFIRMED. -/
theorem claim_C6 (S : List Int) (low high : Int) :
    rangeQuery (build S) low high =
      (canonicalize S).filter (fun y => decide (low ≤ y) && decide (y ≤ high)) := by
  rw [rangeQuery_filter (build_inv S), build_elems]

/-- C7: on every non-empty block with ascending data, `Block::search`
returns the same result whether the AVX2 stage is compiled in or skipped:
the SIMD loop only shrinks the window without ever discarding a matching
position, so the scalar stage concludes identically.  CONFIRMED. -/
theorem claim_C7 (b : Block) (hs : b.data.Sorted (· < ·))
    (hne : b.data ≠ []) (x : Int) :
    Block.searchWith true b x = Block.searchWith false b x :=
  searchWith_simd_eq hs x

theorem claim_C7_witness :
    ([(1 : Int), 3].Sorted (· < ·) ∧ ([(1 : Int), 3] ≠ [])) ∧
    Block.searchWith true ⟨1, 3, [1, 3]⟩ 2 = Block.searchWith false ⟨1, 3, [1, 3]⟩ 2 :=
  ⟨⟨by decide, by decide⟩, claim_C7 ⟨1, 3, [1, 3]⟩ (by decide) (by decide) 2⟩

/-- C8: `build` sorts and deduplicates the buffer and cuts it into
4096-element chunks (last one shorter), each block's bounds being its
first and last element; concretely, on the 20000 integers `0..19999` it
makes five blocks of sizes 4096, 4096, 4096, 4096, 3616, `query 10000`
answers true and `rangeQuery 4090 4100` returns the eleven integers
`4090..4100`.  CONFIRMED (the in-place mutation of the caller's buffer is
a C++ side effect outside this functional model; its result is the
`canonicalize` list below). -/
theorem claim_C8 :
    (∀ l : List Int, elems (build l) = canonicalize l) ∧
    (build ((List.range 20000).map Int.ofNat)).blocks.map
        (fun b => b.data.length) = [4096, 4096, 4096, 4096, 3616] ∧
    (∀ b ∈ (build ((List.range 20000).map Int.ofNat)).blocks,
        b.minVal = b.data.headI ∧ b.maxVal = b.data.getLastI) ∧
    query (build ((List.range 20000).map Int.ofNat)) 10000 = some true ∧
    rangeQuery (build ((List.range 20000).map Int.ofNat)) 4090 4100 =
      (List.range' 4090 11).map Int.ofNat := by
  refine ⟨build_elems, build_block_lengths, ?_, ?_, ?_⟩
  · intro b hb
    exact ⟨((build_inv _).wf b hb).minv, ((build_inv _).wf b hb).maxv⟩
  · refine query_present (build_inv _) ?_
    rw [build_elems, canonicalize_of_sorted (range_cast_sorted 20000)]
    exact List.mem_map.mpr ⟨10000, List.mem_range.mpr (by norm_num), rfl⟩
  · rw [rangeQuery_filter (build_inv _), build_elems,
      canonicalize_of_sorted (range_cast_sorted 20000)]
    exact filter_range_window

/-- C9: on an engine with no blocks, `query` answers false for every
input, `rangeQuery` returns the empty sequence, `insert x` creates a
single block holding exactly `x`, and `build` of an empty input yields no
blocks; none of these operations faults.  CONFIRMED. -/
theorem claim_C9 (e : UltimateHybridSearch) (he : e.blocks = [])
    (x low high : Int) :
    query e x = some false ∧
    rangeQuery e low high = [] ∧
    (e.insert x).blocks.map Block.data = [[x]] ∧
    (build []).blocks = [] := by
  have hemp : e.blocks.isEmpty := by rw [he]; rfl
  refine ⟨?_, ?_, ?_, rfl⟩
  · have hf : findBlockContaining e x = -1 := by
      rw [findBlockContaining, if_pos hemp]
    rw [query, hf, if_pos (by norm_num)]
  · rw [rangeQuery, he]
    rfl
  · rw [UltimateHybridSearch.insert, if_pos hemp]
    rfl

theorem claim_C9_witness :
    (⟨[]⟩ : UltimateHybridSearch).blocks = [] ∧
    (query ⟨[]⟩ 7 = some false ∧
      rangeQuery ⟨[]⟩ 0 1 = [] ∧
      ((⟨[]⟩ : UltimateHybridSearch).insert 7).blocks.map Block.data = [[7]] ∧
      (build []).blocks = []) :=
  ⟨rfl, claim_C9 ⟨[]⟩ rfl 7 0 1⟩

/-- C10: on every engine reachable by `build` plus inserts, inserting an
already stored element changes nothing: `Block::insert` returns at its
`lower_bound` hit, so block count, data, and cached bounds are all
unchanged and no split fires.  CONFIRMED (stated as equality of the whole
engine state). -/
theorem claim_C10 (l xs : List Int) (x : Int)
    (hx : x ∈ elems (applyInserts (build l) xs)) :
    (applyInserts (build l) xs).insert x = applyInserts (build l) xs :=
  insert_of_mem (applyInserts_main xs (build l) (build_inv l)).1 hx

theorem claim_C10_witness :
    (1 : Int) ∈ elems (applyInserts (build [1]) []) ∧
    (applyInserts (build [1]) []).insert 1 = applyInserts (build [1]) [] :=
  ⟨by decide, claim_C10 [1] [] 1 (by decide)⟩
